import Mathlib
set_option maxHeartbeats 1000000

/-
Verification of the process-tree tool in src/pstree.rs.

The program has two phases: a harvester that reads one `status` descriptor
file per entry of the /proc listing and parses `Name` / `Pid` / `PPid`
fields into `ProcessRecord`s, and a tree builder / renderer that indexes the
flat record list by pid and by parent pid, materialises a tree below a
synthetic root (pid 0), and prints it depth-first.

The shallow embedding below mirrors the Rust source function by function.
I/O is made explicit: the lines of a descriptor file become a `List String`,
the per-entry filesystem interactions become an `EntryView`, and a `.unwrap()`
on an `Err` is modelled as `Except.error PopError.panic`.  The unbounded
recursion of `populate_node_helper` is modelled with an explicit fuel
parameter; running out of fuel yields `Except.error PopError.fuel`, so a
`.ok` result certifies that the Rust recursion terminates along every path.
-/

/-- Record for one process, from `struct ProcessRecord` (src/pstree.rs lines
37-42).  Rust fields `name: String`, `pid: i32`, `ppid: i32`; the machine
integers are modelled as `Int` (the i32 range is enforced at the only
production site, `parse_i32`, exactly as Rust `str::parse::<i32>` does). -/
structure ProcessRecord where
  name : String
  pid : Int
  ppid : Int
deriving DecidableEq, Repr

/-- Node of the reconstructed hierarchy, from `struct ProcessTreeNode`
(lines 44-48): it owns one record and the ordered list of children. -/
inductive ProcessTreeNode where
  | mk (record : ProcessRecord) (children : List ProcessTreeNode)

/-- Projection for the `record` field of a node. -/
def ProcessTreeNode.record : ProcessTreeNode → ProcessRecord
  | .mk r _ => r

/-- Projection for the `children` field of a node. -/
def ProcessTreeNode.children : ProcessTreeNode → List ProcessTreeNode
  | .mk _ cs => cs

/-- Error outcomes of running embedded code: `panic` models a Rust panic
(an `.unwrap()` of an `Err`/missing value, or an out-of-bounds index), and
`fuel` is the embedding artifact marking exhausted recursion fuel. -/
inductive PopError where
  | panic
  | fuel
deriving DecidableEq, Repr

/-- Rust `str::trim` on the character list of a string: remove leading and
trailing whitespace (used on key and value at lines 80-81).  `Char.isWhitespace`
covers the ASCII whitespace of descriptor files; Rust additionally trims
exotic Unicode whitespace, which `Name`, `Pid` and `PPid` lines never carry. -/
def trimChars (l : List Char) : List Char :=
  ((l.dropWhile Char.isWhitespace).reverse.dropWhile Char.isWhitespace).reverse

/-- Split a character list at the first occurrence of `sep`: returns the part
before and the part after; `none` when `sep` does not occur.  This models
`linebuf.splitn(2, ':')` together with the `parts.len() == 2` check at lines
78-79: `splitn(2, c)` yields two parts exactly when the separator occurs, the
second part being the entire remainder (later separators are not split). -/
def splitFirst (sep : Char) : List Char → Option (List Char × List Char)
  | [] => none
  | c :: cs =>
    if c = sep then some ([], cs)
    else (splitFirst sep cs).map (fun p => (c :: p.1, p.2))

/-- Key/value extraction from one descriptor line (lines 78-81): split at the
first colon, then trim both sides.  `none` when the line has no colon. -/
def lineKV (line : String) : Option (String × String) :=
  (splitFirst ':' line.toList).map
    (fun p => (String.mk (trimChars p.1), String.mk (trimChars p.2)))

/-- Rust `str::parse::<i32>` (used via `value.parse().ok()` at lines 84-85):
an optional single `+`/`-` sign followed by one or more ASCII digits, and the
value must fit in the i32 range; everything else is a parse failure. -/
def parse_i32 (s : String) : Option Int :=
  let cs := s.toList
  let signed :=
    match cs with
    | '-' :: t => (true, t)
    | '+' :: t => (false, t)
    | _ => (false, cs)
  let ds := signed.2
  if ds.isEmpty then none
  else if ds.all Char.isDigit then
    let n : Nat := ds.foldl (fun a c => 10 * a + (c.toNat - '0'.toNat)) 0
    let v : Int := if signed.1 then -(n : Int) else (n : Int)
    if -(2 ^ 31) ≤ v ∧ v ≤ 2 ^ 31 - 1 then some v else none
  else none

/-- State of the accumulator loop of `get_process_record` (lines 66-92):
the three tracked optional fields, in source order `(name, pid, ppid)`
(Rust declares `pid`, `ppid`, `name`; the tuple order here is irrelevant,
each field is updated independently). One iteration per line: stop at an
empty read (EOF), split at the first colon, and on the tracked keys store
the trimmed value (`Name`) or the result of parsing it (`Pid` / `PPid`),
overwriting whatever the field held before. -/
def gpr_loop : List String → Option String × Option Int × Option Int →
    Option String × Option Int × Option Int
  | [], st => st
  | line :: rest, st =>
    if line = "" then st
    else
      gpr_loop rest
        (match lineKV line with
          | some kv =>
            if kv.1 = "Name" then (some kv.2, st.2.1, st.2.2)
            else if kv.1 = "Pid" then (st.1, parse_i32 kv.2, st.2.2)
            else if kv.1 = "PPid" then (st.1, st.2.1, parse_i32 kv.2)
            else st
          | none => st)

/-- `get_process_record` (lines 65-98) on the lines read from a status file
(as `read_line` produces them, a line of a real file is never the empty
string: EOF is the empty read that stops the loop).  A record is returned
only when all three fields ended up set (lines 93-97). -/
def get_process_record (lines : List String) : Option ProcessRecord :=
  match gpr_loop lines (none, none, none) with
  | (some n, some p, some pp) => some { name := n, pid := p, ppid := pp }
  | _ => none

/-- What the harvester observes about one entry of the /proc listing, in the
order the code interacts with the filesystem (lines 107-117).  Each field is
the outcome of one syscall at its moment of use; `none` models an `Err`
result (typically: the process exited and the path vanished).  The listing
itself is assumed to yield its entries (`entry.unwrap()` at line 108 would
panic on a `ReadDir` error, a condition none of the claims concern). -/
structure EntryView where
  /-- Result of `fs::metadata(entry_path)` (line 109): `none` = `Err`,
  `some b` = `Ok` with `is_dir() = b`. -/
  dir_meta : Option Bool
  /-- Result of `fs::metadata(status_path)` (line 111): `none` = `Err`,
  `some b` = `Ok` with `is_file() = b`. -/
  status_meta : Option Bool
  /-- Result of `File::open(status_path)` followed by reading (line 70):
  `none` = `Err` on open, `some lines` = the lines of the file. -/
  status_lines : Option (List String)
deriving DecidableEq, Repr

/-- The body of the `filter_map` closure of `get_process_records`
(lines 107-118) for one entry, including the `get_process_record` call it
makes.  `fs::metadata(entry_path).unwrap()` at line 109 and
`File::open(status_path).unwrap()` at line 70 turn an `Err` into a panic;
the `if let Ok(metadata)` at line 111 tolerates an `Err` on the status
file metadata and yields no record. -/
def processEntry (e : EntryView) : Except PopError (Option ProcessRecord) :=
  match e.dir_meta with
  | none => .error .panic
  | some isdir =>
    if isdir then
      match e.status_meta with
      | none => .ok none
      | some isfile =>
        if isfile then
          match e.status_lines with
          | none => .error .panic
          | some lines => .ok (get_process_record lines)
        else .ok none
    else .ok none

/-- `get_process_records` (lines 102-119): `filter_map` over the /proc
listing, collecting the records the entries yield; a panic while processing
one entry aborts the whole harvest. -/
def get_process_records : List EntryView → Except PopError (List ProcessRecord)
  | [] => .ok []
  | e :: es =>
    match processEntry e with
    | .error err => .error err
    | .ok none => get_process_records es
    | .ok (some r) =>
      match get_process_records es with
      | .error err => .error err
      | .ok rs => .ok (r :: rs)

/-- The `pid_map` built by the loop of `populate_node` (lines 141-146):
`pid_map.insert(record.pid, record)` for each record in order, so a later
record with the same pid overwrites an earlier one.  A `HashMap` is modelled
as the lookup function it defines. -/
def pid_map_of (records : List ProcessRecord) : Int → Option ProcessRecord :=
  records.foldl (fun m r q => if q = r.pid then some r else m q) (fun _ => none)

/-- The `ppid_map` built by the same loop (lines 140-151): for each record in
order, push its pid onto the vector at key `record.ppid` (`vec![record.pid]`
when the key was vacant).  Modelled as the lookup function. -/
def ppid_map_of (records : List ProcessRecord) : Int → Option (List Int) :=
  records.foldl
    (fun m r q => if q = r.ppid then some (((m q).getD []) ++ [r.pid]) else m q)
    (fun _ => none)

/-- The iteration of the closure at lines 126-131 over the children pid list:
for each child pid, `pid_map[child_pid]` (a panic when the key is absent),
`ProcessTreeNode::new(record)` (a fresh node with no children), recursive
population of that child via `f`, and collection in order. -/
def populate_children (f : ProcessTreeNode → Except PopError ProcessTreeNode)
    (pid_map : Int → Option ProcessRecord) :
    List Int → Except PopError (List ProcessTreeNode)
  | [] => .ok []
  | q :: qs =>
    match pid_map q with
    | none => .error .panic
    | some r =>
      match f (.mk r []) with
      | .error err => .error err
      | .ok c =>
        match populate_children f pid_map qs with
        | .error err => .error err
        | .ok cs => .ok (c :: cs)

/-- `populate_node_helper` (lines 121-135) with explicit recursion fuel: look
the node's pid up in `ppid_map` (`None` means no children, the `match` arm at
line 133), build and populate one child per listed pid, and extend the node's
children with them. -/
def populate_node_helper (fuel : Nat) (pid_map : Int → Option ProcessRecord)
    (ppid_map : Int → Option (List Int)) (node : ProcessTreeNode) :
    Except PopError ProcessTreeNode :=
  match fuel with
  | 0 => .error .fuel
  | fuel + 1 =>
    let qs :=
      match ppid_map node.record.pid with
      | some l => l
      | none => []
    match populate_children
        (fun nd => populate_node_helper fuel pid_map ppid_map nd) pid_map qs with
    | .error err => .error err
    | .ok cs => .ok (.mk node.record (node.children ++ cs))

/-- `populate_node` (lines 137-155): build the two indexes in one pass over
the records, then run the recursive population from the given node. -/
def populate_node (fuel : Nat) (node : ProcessTreeNode)
    (records : List ProcessRecord) : Except PopError ProcessTreeNode :=
  populate_node_helper fuel (pid_map_of records) (ppid_map_of records) node

/-- The synthetic root record constructed in `build_process_tree`
(lines 160-165). -/
def rootRecord : ProcessRecord := { name := "/", pid := 0, ppid := -1 }

/-- `build_process_tree` (lines 157-174) minus the harvest it begins with:
the record list is passed in (the harvest is `get_process_records`, modelled
separately), the tree starts as the bare synthetic root and is populated from
it.  The `ProcessTree` wrapper adds nothing and is elided: the result is the
root node. -/
def build_process_tree (fuel : Nat) (records : List ProcessRecord) :
    Except PopError ProcessTreeNode :=
  populate_node fuel (.mk rootRecord []) records

mutual
/-- Pre-order listing of a tree: each node contributes the pair (its depth,
its record), the node itself before its children, children in stored order.
This is the traversal the specification describes for the renderer, and the
canonical way to speak about which records the tree contains at which depth. -/
def preorder (t : ProcessTreeNode) (d : Nat) : List (Nat × ProcessRecord) :=
  match t with
  | .mk r cs => (d, r) :: preorderList cs (d + 1)
termination_by sizeOf t

/-- Pre-order listing of a forest at a common depth, in order. -/
def preorderList (ts : List ProcessTreeNode) (d : Nat) :
    List (Nat × ProcessRecord) :=
  match ts with
  | [] => []
  | t :: ts => preorder t d ++ preorderList ts d
termination_by sizeOf ts
end

/-- The records of all nodes of a tree, in pre-order. -/
def recordsOf (t : ProcessTreeNode) : List ProcessRecord :=
  (preorder t 0).map Prod.snd

/-- How many nodes of the tree carry exactly the record `s`. -/
def countRecord (t : ProcessTreeNode) (s : ProcessRecord) : Nat :=
  (recordsOf t).count s

/-- How many nodes of the tree carry a record with pid `p`. -/
def countPid (t : ProcessTreeNode) (p : Int) : Nat :=
  (recordsOf t).countP (fun r => r.pid == p)

/-- The indentation emitted by the loop at lines 178-180: `indent_level`
copies of two spaces. -/
def indentOf : Nat → String
  | 0 => ""
  | n + 1 => "  " ++ indentOf n

mutual
/-- `print_node` (lines 176-185), with standard output made explicit as the
list of printed lines: the node's own line (indentation, then
`- <name> #<pid>` as `println!` formats it), followed by the lines of the
children at the next indent level, in order. -/
def print_node (node : ProcessTreeNode) (indent_level : Nat) : List String :=
  match node with
  | .mk r cs =>
    (indentOf indent_level ++ "- " ++ r.name ++ " #" ++ toString r.pid)
      :: print_node_rest cs (indent_level + 1)
termination_by sizeOf node

/-- The lines printed for a list of sibling nodes at one indent level. -/
def print_node_rest (cs : List ProcessTreeNode) (d : Nat) : List String :=
  match cs with
  | [] => []
  | c :: cs => print_node c d ++ print_node_rest cs d
termination_by sizeOf cs
end

/-- The line format the specification prescribes for a node at depth `d`:
an indent of a fixed number of spaces (two) multiplied by the depth, a
marker, the name, and the pid. -/
def specLine (x : Nat × ProcessRecord) : String :=
  String.mk (List.replicate (2 * x.1) ' ') ++ "- " ++ x.2.name ++ " #" ++
    toString x.2.pid

/-- The pids of the records whose ppid is `q`, in record order: this is the
vector `ppid_map[q]` holds whenever it holds one (proved below). -/
def child_pids (records : List ProcessRecord) (q : Int) : List Int :=
  (records.filter (fun r => r.ppid = q)).map (fun r => r.pid)

/-- Record `s` lies `n` (≥ 1) ppid-steps below the pid `p`: there are records
`r₁, …, rₙ = s` with `r₁.ppid = p` and each later one naming the previous
one's pid as its ppid.  `ReachAt records 0 s n` is the specification's
"record s is reachable from pid 0 by following ppid edges, with a ppid chain
of length n back to 0" (the synthetic root, depth 0, is the pid 0 itself). -/
inductive ReachAt (records : List ProcessRecord) : Int → ProcessRecord → Nat → Prop
  | base {s : ProcessRecord} {p : Int} (hs : s ∈ records) (hp : s.ppid = p) :
      ReachAt records p s 1
  | step {r s : ProcessRecord} {p : Int} {n : Nat} (hr : r ∈ records)
      (hp : r.ppid = p) (h : ReachAt records r.pid s n) :
      ReachAt records p s (n + 1)

/-- Pid-level path of length `n` from pid `p` to pid `q` along the edges
"some record has this ppid and that pid".  This is the graph the recursion of
`populate_node_helper` walks. -/
inductive PidPath (records : List ProcessRecord) : Int → Int → Nat → Prop
  | refl (p : Int) : PidPath records p p 0
  | step {r : ProcessRecord} {p q : Int} {n : Nat} (hr : r ∈ records)
      (hp : r.ppid = p) (h : PidPath records r.pid q n) :
      PidPath records p q (n + 1)

/-- A pid-level path materialised as the list of pids it visits after the
start: `IsPidChain records a l b` holds when `l` lists, in order, the pids of
records stepping from `a` down to `b` (`b` the last element, or `a` itself
when `l` is empty). -/
inductive IsPidChain (records : List ProcessRecord) : Int → List Int → Int → Prop
  | nil (a : Int) : IsPidChain records a [] a
  | cons {r : ProcessRecord} {a b : Int} {l : List Int} (hr : r ∈ records)
      (hp : r.ppid = a) (h : IsPidChain records r.pid l b) :
      IsPidChain records a (r.pid :: l) b

/-- The key/value pairs of the lines of a descriptor file, in order (lines
with no colon contribute nothing). -/
def kvs (lines : List String) : List (String × String) :=
  lines.filterMap lineKV

/-- The value of the last line carrying key `k`, if any: with the
overwrite-on-repeat policy this is the value that decides field `k`. -/
def lastVal (k : String) (lines : List String) : Option String :=
  ((kvs lines).reverse.find? (fun p => p.1 == k)).map Prod.snd

/-- Unfolding of the `pid_map` fold: the lookup at `q` returns the last
record with pid `q`, or falls back to the initial map. -/
theorem pid_map_fold (rs : List ProcessRecord) (m : Int → Option ProcessRecord)
    (q : Int) :
    List.foldl (fun m r q => if q = r.pid then some r else m q) m rs q =
      (rs.reverse.find? (fun r => r.pid == q)).elim (m q) some := by
  induction rs generalizing m with
  | nil => simp
  | cons r rs ih =>
    simp only [List.foldl_cons, ih, List.reverse_cons, List.find?_append]
    cases h : rs.reverse.find? (fun r => r.pid == q) with
    | some rr => simp [Option.orElse]
    | none =>
      by_cases hq : r.pid = q
      · simp [Option.orElse, List.find?, hq]
      · have hb : (r.pid == q) = false := by simpa using hq
        simp [Option.orElse, List.find?, hq, hb]
        exact fun hqq => absurd hqq.symm hq

theorem pid_map_of_eq (records : List ProcessRecord) (q : Int) :
    pid_map_of records q =
      (records.reverse.find? (fun r => r.pid == q)).elim none some := by
  simpa using pid_map_fold records (fun _ => none) q

/-- A successful `pid_map` lookup yields a stored record with the looked-up pid. -/
theorem pid_map_mem {records : List ProcessRecord} {q : Int} {r : ProcessRecord}
    (h : pid_map_of records q = some r) : r ∈ records ∧ r.pid = q := by
  rw [pid_map_of_eq] at h
  cases hf : records.reverse.find? (fun r => r.pid == q) with
  | none => rw [hf] at h; simp at h
  | some rr =>
    rw [hf] at h
    simp at h
    subst h
    have hm := List.mem_of_find?_eq_some hf
    have hp := List.find?_some hf
    exact ⟨List.mem_reverse.mp hm, by simpa using hp⟩

/-- A `pid_map` lookup at a stored pid succeeds. -/
theorem pid_map_isSome {records : List ProcessRecord} {q : Int}
    (h : ∃ r ∈ records, r.pid = q) : (pid_map_of records q).isSome := by
  rw [pid_map_of_eq]
  rcases h with ⟨r, hr, hq⟩
  have : records.reverse.find? (fun r => r.pid == q) |>.isSome := by
    rw [List.find?_isSome]
    exact ⟨r, List.mem_reverse.mpr hr, by simpa using hq⟩
  cases hf : records.reverse.find? (fun r => r.pid == q) with
  | none => rw [hf] at this; simp at this
  | some rr => simp [hf]

/-- Distinct stored pids make records with equal pids equal. -/
theorem pid_inj {records : List ProcessRecord}
    (hN : (records.map (fun r => r.pid)).Nodup) {a b : ProcessRecord}
    (ha : a ∈ records) (hb : b ∈ records) (hp : a.pid = b.pid) : a = b :=
  List.inj_on_of_nodup_map hN ha hb hp

/-- With distinct pids, looking a stored record's pid up returns that record. -/
theorem pid_map_self {records : List ProcessRecord}
    (hN : (records.map (fun r => r.pid)).Nodup) {r : ProcessRecord}
    (hr : r ∈ records) : pid_map_of records r.pid = some r := by
  have hsome := pid_map_isSome ⟨r, hr, rfl⟩
  cases h : pid_map_of records r.pid with
  | none => rw [h] at hsome; simp at hsome
  | some rr =>
    obtain ⟨hmem, hpid⟩ := pid_map_mem h
    exact congrArg some (pid_inj hN hmem hr hpid)

/-- Later-observed records win in the pid index: a record that no later
record shadows is what its pid looks up to. -/
theorem pid_map_last_wins (l1 l2 : List ProcessRecord) (r : ProcessRecord)
    (h : ∀ s ∈ l2, s.pid ≠ r.pid) :
    pid_map_of (l1 ++ r :: l2) r.pid = some r := by
  rw [pid_map_of_eq]
  have h2 : l2.reverse.find? (fun s => s.pid == r.pid) = none := by
    rw [List.find?_eq_none]
    intro s hs
    simpa using h s (List.mem_reverse.mp hs)
  rw [List.reverse_append, List.reverse_cons, List.append_assoc,
    List.find?_append, h2]
  simp [Option.orElse, List.find?_append, List.find?]

/-- Unfolding of the `ppid_map` fold: the lookup at `q` appends the pids of
the records with ppid `q` to whatever the initial map held at `q`. -/
theorem ppid_map_fold (rs : List ProcessRecord)
    (m : Int → Option (List Int)) (q : Int) :
    List.foldl
      (fun m r q => if q = r.ppid then some (((m q).getD []) ++ [r.pid]) else m q)
      m rs q =
      match m q with
      | some l => some (l ++ child_pids rs q)
      | none => if child_pids rs q = [] then none else some (child_pids rs q) := by
  induction rs generalizing m with
  | nil => cases h : m q <;> simp [h, child_pids]
  | cons r rs ih =>
    simp only [List.foldl_cons, ih]
    by_cases hq : q = r.ppid
    · subst hq
      have hc : child_pids (r :: rs) r.ppid = r.pid :: child_pids rs r.ppid := by
        simp [child_pids, List.filter_cons]
      rw [hc]
      cases h : m r.ppid with
      | none => simp [h]
      | some l => simp [h]
    · have hne : ¬(r.ppid = q) := fun hh => hq hh.symm
      have hc : child_pids (r :: rs) q = child_pids rs q := by
        simp [child_pids, List.filter_cons, hne]
      rw [hc]
      cases h : m q <;> simp [h, hq]

theorem ppid_map_of_eq (records : List ProcessRecord) (q : Int) :
    ppid_map_of records q =
      if child_pids records q = [] then none
      else some (child_pids records q) := by
  simpa using ppid_map_fold records (fun _ => none) q

/-- The child-pid list `populate_node_helper` iterates over (the `match` at
lines 124-133, with the `None` arm contributing nothing) is exactly
`child_pids`. -/
theorem ppid_map_list (records : List ProcessRecord) (q : Int) :
    (match ppid_map_of records q with
      | some l => l
      | none => []) = child_pids records q := by
  rw [ppid_map_of_eq]
  by_cases h : child_pids records q = [] <;> simp [h]

/-- Membership in a child-pid list names the pid and ppid of some record. -/
theorem child_pids_mem {records : List ProcessRecord} {p q : Int} :
    q ∈ child_pids records p ↔ ∃ r ∈ records, r.ppid = p ∧ r.pid = q := by
  simp only [child_pids, List.mem_map, List.mem_filter]
  constructor
  · rintro ⟨r, ⟨hr, hp⟩, hq⟩
    exact ⟨r, hr, by simpa using hp, hq⟩
  · rintro ⟨r, hr, hp, hq⟩
    exact ⟨r, ⟨hr, by simpa using hp⟩, hq⟩

/-- Success of `populate_children` is pointwise success: child nodes
correspond, in order, to the listed pids, each obtained by a successful
`pid_map` lookup followed by a successful recursive population. -/
theorem populate_children_ok_iff
    {f : ProcessTreeNode → Except PopError ProcessTreeNode}
    {pm : Int → Option ProcessRecord} {qs : List Int}
    {cs : List ProcessTreeNode} :
    populate_children f pm qs = .ok cs ↔
      List.Forall₂ (fun q c => ∃ r, pm q = some r ∧ f (.mk r []) = .ok c) qs cs := by
  induction qs generalizing cs with
  | nil =>
    constructor
    · intro h
      cases cs with
      | nil => exact List.Forall₂.nil
      | cons c cs => simp [populate_children] at h
    · intro h
      cases h
      rfl
  | cons q qs ih =>
    constructor
    · intro h
      simp only [populate_children] at h
      split at h
      · simp at h
      next r hpm =>
        split at h
        · simp at h
        next c hf =>
          split at h
          · simp at h
          next cs' hrest =>
            cases cs with
            | nil => simp at h
            | cons c0 cs0 =>
              simp only [Except.ok.injEq, List.cons.injEq] at h
              obtain ⟨hc, hcs⟩ := h
              subst hc
              subst hcs
              exact List.Forall₂.cons ⟨r, hpm, hf⟩ (ih.mp hrest)
    · intro h
      cases h with
      | cons hqc hrest =>
        obtain ⟨r, hpm, hf⟩ := hqc
        simp only [populate_children, hpm, hf, ih.mpr hrest]

/-- `populate_children` never panics when every listed pid resolves in the
pid map and the recursive call never panics. -/
theorem populate_children_no_panic
    {f : ProcessTreeNode → Except PopError ProcessTreeNode}
    {pm : Int → Option ProcessRecord} {qs : List Int}
    (hq : ∀ q ∈ qs, (pm q).isSome)
    (hf : ∀ nd, f nd ≠ .error .panic) :
    populate_children f pm qs ≠ .error .panic := by
  induction qs with
  | nil => simp [populate_children]
  | cons q qs ih =>
    simp only [populate_children]
    cases hpm : pm q with
    | none =>
      have := hq q (by simp)
      rw [hpm] at this
      simp at this
    | some r =>
      cases hff : f (.mk r []) with
      | error e =>
        cases e with
        | panic => exact absurd hff (hf _)
        | fuel => simp [hff]
      | ok c =>
        cases hrest : populate_children f pm qs with
        | error e =>
          cases e with
          | panic => exact absurd hrest (ih (fun x hx => hq x (by simp [hx])))
          | fuel => simp [hff, hrest]
        | ok cs => simp [hff, hrest]

/-- `populate_children` succeeds when every listed pid resolves and the
recursive call succeeds on the resolved fresh node. -/
theorem populate_children_ok_of
    {f : ProcessTreeNode → Except PopError ProcessTreeNode}
    {pm : Int → Option ProcessRecord} {qs : List Int}
    (hq : ∀ q ∈ qs, ∃ r c, pm q = some r ∧ f (.mk r []) = .ok c) :
    ∃ cs, populate_children f pm qs = .ok cs := by
  induction qs with
  | nil => exact ⟨[], rfl⟩
  | cons q qs ih =>
    obtain ⟨r, c, hpm, hf⟩ := hq q (by simp)
    obtain ⟨cs, hcs⟩ := ih (fun x hx => hq x (by simp [hx]))
    exact ⟨c :: cs, by simp only [populate_children, hpm, hf, hcs]⟩

/-- Shape of a successful `populate_node_helper` call: the result keeps the
node's record, and extends its children with the recursively populated
children of its child-pid list. -/
theorem populate_node_helper_ok_iff {fuel : Nat}
    {pm : Int → Option ProcessRecord} {cm : Int → Option (List Int)}
    {node t : ProcessTreeNode} :
    populate_node_helper (fuel + 1) pm cm node = .ok t ↔
      ∃ cs, populate_children (fun nd => populate_node_helper fuel pm cm nd) pm
          (match cm node.record.pid with | some l => l | none => []) = .ok cs ∧
        t = .mk node.record (node.children ++ cs) := by
  constructor
  · intro h
    simp only [populate_node_helper] at h
    cases hpc : populate_children (fun nd => populate_node_helper fuel pm cm nd)
        pm (match cm node.record.pid with | some l => l | none => []) with
    | error e => rw [hpc] at h; exact absurd h (by simp)
    | ok cs =>
      rw [hpc] at h
      simp at h
      exact ⟨cs, rfl, h.symm⟩
  · rintro ⟨cs, hpc, ht⟩
    simp only [populate_node_helper, hpc, ht]

/-- A successful population keeps the record of the node it started from. -/
theorem populate_node_helper_record {fuel : Nat}
    {pm : Int → Option ProcessRecord} {cm : Int → Option (List Int)}
    {node t : ProcessTreeNode}
    (h : populate_node_helper fuel pm cm node = .ok t) :
    t.record = node.record := by
  cases fuel with
  | zero => exact absurd h (by simp [populate_node_helper])
  | succ fuel =>
    obtain ⟨cs, _, ht⟩ := populate_node_helper_ok_iff.mp h
    simp [ht, ProcessTreeNode.record]

/-- Every pid in any vector of the parent-pid index is the pid of a stored
record, hence resolves in the pid index built in the same pass. -/
theorem ppid_map_pids_resolve (records : List ProcessRecord) (p : Int)
    (l : List Int) (q : Int) (hl : ppid_map_of records p = some l) (hq : q ∈ l) :
    (pid_map_of records q).isSome := by
  rw [ppid_map_of_eq] at hl
  by_cases hc : child_pids records p = []
  · rw [if_pos hc] at hl
    exact absurd hl (by simp)
  · rw [if_neg hc] at hl
    obtain ⟨r, hr, _, hpid⟩ := child_pids_mem.mp (by
      rw [show l = child_pids records p from (Option.some.injEq _ _ ▸ hl).symm] at hq
      exact hq)
    exact pid_map_isSome ⟨r, hr, hpid⟩

/-- Tree population over indexes built from one record list never panics:
the missing-key branch of the `pid_map[child_pid]` lookup is unreachable. -/
theorem populate_node_helper_no_panic (records : List ProcessRecord) :
    ∀ (fuel : Nat) (node : ProcessTreeNode),
      populate_node_helper fuel (pid_map_of records) (ppid_map_of records) node ≠
        .error .panic := by
  intro fuel
  induction fuel with
  | zero => intro node; simp [populate_node_helper]
  | succ fuel ih =>
    intro node
    simp only [populate_node_helper]
    have hq : ∀ q ∈ (match ppid_map_of records node.record.pid with
        | some l => l
        | none => []), (pid_map_of records q).isSome := by
      rw [ppid_map_list]
      intro q hq
      obtain ⟨r, hr, _, hpid⟩ := child_pids_mem.mp hq
      exact pid_map_isSome ⟨r, hr, hpid⟩
    have hnp := @populate_children_no_panic _ _ _ hq (fun nd => ih nd)
    cases hpc : populate_children (fun nd =>
        populate_node_helper fuel (pid_map_of records) (ppid_map_of records) nd)
        (pid_map_of records)
        (match ppid_map_of records node.record.pid with
          | some l => l
          | none => []) with
    | error e =>
      cases e with
      | panic => exact absurd hpc hnp
      | fuel => simp [hpc]
    | ok cs => simp [hpc]

/-- One step of `lastVal`: a later line with the key wins; otherwise the new
head line decides iff it carries the key. -/
theorem lastVal_cons (k : String) (line : String) (rest : List String) :
    lastVal k (line :: rest) =
      (lastVal k rest).elim
        (match lineKV line with
          | some kv => if kv.1 = k then some kv.2 else none
          | none => none) some := by
  unfold lastVal kvs
  rw [List.filterMap_cons]
  cases hkv : lineKV line with
  | none =>
    cases hf : (rest.filterMap lineKV).reverse.find? (fun p => p.1 == k) <;>
      simp [hf]
  | some kv =>
    rw [List.reverse_cons, List.find?_append]
    cases hf : (rest.filterMap lineKV).reverse.find? (fun p => p.1 == k) with
    | some pr => simp [hf, Option.orElse]
    | none =>
      by_cases hk : kv.1 = k
      · have hb : (kv.1 == k) = true := by simpa using hk
        simp [hf, Option.orElse, List.find?, hb, hk]
      · have hb : (kv.1 == k) = false := by simpa using hk
        simp [hf, Option.orElse, List.find?, hb, hk]

/-- The loop state after scanning all lines: each tracked field is decided by
the last line carrying its key (`Name` keeps the trimmed value, `Pid` and
`PPid` the outcome of parsing it, which may be `none` again), and keeps its
initial value when no line carries the key. -/
theorem gpr_loop_eq : ∀ (lines : List String), "" ∉ lines →
    ∀ st : Option String × Option Int × Option Int,
    gpr_loop lines st =
      ((lastVal "Name" lines).elim st.1 some,
       (lastVal "Pid" lines).elim st.2.1 parse_i32,
       (lastVal "PPid" lines).elim st.2.2 parse_i32) := by
  intro lines
  induction lines with
  | nil => intro _ st; simp [gpr_loop, lastVal, kvs]
  | cons line rest ih =>
    intro h st
    have hline : ¬line = "" := fun he => h (by simp [he])
    have hrest : "" ∉ rest := fun he => h (by simp [he])
    simp only [gpr_loop, if_neg hline]
    rw [ih hrest]
    rw [lastVal_cons "Name" line rest, lastVal_cons "Pid" line rest,
      lastVal_cons "PPid" line rest]
    cases hkv : lineKV line with
    | none =>
      cases hN : lastVal "Name" rest <;> cases hP : lastVal "Pid" rest <;>
        cases hPP : lastVal "PPid" rest <;> simp [hkv]
    | some kv =>
      by_cases h1 : kv.1 = "Name"
      · cases hN : lastVal "Name" rest <;> cases hP : lastVal "Pid" rest <;>
          cases hPP : lastVal "PPid" rest <;> simp [hkv, h1]
      · by_cases h2 : kv.1 = "Pid"
        · cases hN : lastVal "Name" rest <;> cases hP : lastVal "Pid" rest <;>
            cases hPP : lastVal "PPid" rest <;> simp [hkv, h1, h2]
        · by_cases h3 : kv.1 = "PPid"
          · cases hN : lastVal "Name" rest <;> cases hP : lastVal "Pid" rest <;>
              cases hPP : lastVal "PPid" rest <;> simp [hkv, h1, h2, h3]
          · cases hN : lastVal "Name" rest <;> cases hP : lastVal "Pid" rest <;>
              cases hPP : lastVal "PPid" rest <;> simp [hkv, h1, h2, h3]

/-- The harvested record as a function of the last line per tracked key. -/
theorem get_process_record_lasts (lines : List String) (h : "" ∉ lines) :
    get_process_record lines =
      match lastVal "Name" lines, (lastVal "Pid" lines).bind parse_i32,
          (lastVal "PPid" lines).bind parse_i32 with
      | some n, some p, some pp => some { name := n, pid := p, ppid := pp }
      | _, _, _ => none := by
  unfold get_process_record
  rw [gpr_loop_eq lines h]
  cases hN : lastVal "Name" lines with
  | none =>
    cases hP : lastVal "Pid" lines with
    | none => cases hPP : lastVal "PPid" lines <;> simp
    | some vP =>
      cases hPP : lastVal "PPid" lines <;> cases hp : parse_i32 vP <;>
        simp [hp]
  | some vN =>
    cases hP : lastVal "Pid" lines with
    | none => cases hPP : lastVal "PPid" lines <;> simp
    | some vP =>
      cases hPP : lastVal "PPid" lines with
      | none => cases hp : parse_i32 vP <;> simp [hp]
      | some vPP =>
        cases hp : parse_i32 vP <;> cases hpp : parse_i32 vPP <;>
          simp [hp, hpp]

/-- Two members both satisfying a predicate that holds at most once in the
list are equal. -/
theorem countP_le_one_unique {α : Type} {p : α → Bool} {l : List α}
    (hc : l.countP p ≤ 1) {x y : α} (hx : x ∈ l) (hy : y ∈ l)
    (hpx : p x) (hpy : p y) : x = y := by
  by_contra hne
  obtain ⟨l1, l2, rfl⟩ := List.append_of_mem hx
  rw [List.countP_append, List.countP_cons, hpx] at hc
  simp at hc
  rcases List.mem_append.mp hy with hy1 | hy2
  · have : 1 ≤ l1.countP p := List.countP_pos_iff.mpr ⟨y, hy1, hpy⟩
    omega
  · rcases List.mem_cons.mp hy2 with rfl | hy2
    · exact hne rfl
    · have : 1 ≤ l2.countP p := List.countP_pos_iff.mpr ⟨y, hy2, hpy⟩
      omega

/-- A successful `lastVal` lookup returns the value of a stored pair. -/
theorem lastVal_mem {k : String} {lines : List String} {v : String}
    (h : lastVal k lines = some v) : (k, v) ∈ kvs lines := by
  unfold lastVal at h
  cases hf : (kvs lines).reverse.find? (fun p => p.1 == k) with
  | none => rw [hf] at h; simp at h
  | some pr =>
    rw [hf] at h
    simp at h
    have hmem := List.mem_reverse.mp (List.mem_of_find?_eq_some hf)
    have hpk : pr.1 = k := by simpa using List.find?_some hf
    have : pr = (k, v) := by
      cases pr
      simp_all
    exact this ▸ hmem

/-- When key `k` occurs at most once, any stored pair with key `k` is what
`lastVal` returns. -/
theorem lastVal_of_unique {k : String} {lines : List String} {v : String}
    (hu : (kvs lines).countP (fun p => p.1 == k) ≤ 1)
    (hmem : (k, v) ∈ kvs lines) : lastVal k lines = some v := by
  cases hl : lastVal k lines with
  | none =>
    unfold lastVal at hl
    cases hf : (kvs lines).reverse.find? (fun p => p.1 == k) with
    | some pr => rw [hf] at hl; simp at hl
    | none =>
      rw [List.find?_eq_none] at hf
      exact absurd (by simp : ((k, v).1 == k) = true)
        (by simpa using hf (k, v) (List.mem_reverse.mpr hmem))
  | some w =>
    have hw := lastVal_mem hl
    have := countP_le_one_unique hu hw hmem (by simp) (by simp)
    simp at this
    rw [this]

/-- Splitting at the first separator: everything before it (`sep`-free) is
the first part, the entire remainder the second. -/
theorem splitFirst_append (sep : Char) (a b : List Char) (ha : sep ∉ a) :
    splitFirst sep (a ++ sep :: b) = some (a, b) := by
  induction a with
  | nil => simp [splitFirst]
  | cons c a iha =>
    have hc : ¬c = sep := fun he => ha (by simp [he])
    have ha' : sep ∉ a := fun he => ha (by simp [he])
    simp [splitFirst, hc, iha ha']

/-- No separator, no split. -/
theorem splitFirst_none (sep : Char) (c : List Char) (hc : sep ∉ c) :
    splitFirst sep c = none := by
  induction c with
  | nil => rfl
  | cons x c ihc =>
    have hx : ¬x = sep := fun he => hc (by simp [he])
    have hc' : sep ∉ c := fun he => hc (by simp [he])
    simp [splitFirst, hx, ihc hc']

/-- C1: if a process directory vanishes between the /proc listing and its
metadata query, or the status file vanishes between its metadata query and
the open, the harvest panics (`.unwrap()` on `Err`, lines 109 and 70) and
aborts, losing the remaining entries, instead of skipping the entry; only a
status file vanishing before its own metadata query is tolerated.  The first
two conjuncts exhibit the aborts the claim rules out, the third the single
tolerated window. -/
theorem claim_C1 :
    get_process_records
        [⟨none, none, none⟩,
         ⟨some true, some true, some ["Name: init", "Pid: 1", "PPid: 0"]⟩] =
      .error .panic ∧
    get_process_records [⟨some true, some true, none⟩] = .error .panic ∧
    get_process_records
        [⟨some true, none, none⟩,
         ⟨some true, some true, some ["Name: init", "Pid: 1", "PPid: 0"]⟩] =
      .ok [{ name := "init", pid := 1, ppid := 0 }] := by
  exact ⟨rfl, rfl, rfl⟩

/-- C7: parsing is a deterministic function of the last line carrying each
tracked key: each occurrence overwrites the field, `Name` keeping the trimmed
value and `Pid`/`PPid` the outcome of parsing it, so a final parse failure
leaves the field unset even if an earlier occurrence had parsed. -/
theorem claim_C7 (lines : List String) (h : ("" : String) ∉ lines) :
    get_process_record lines =
      match lastVal ("Name") lines, (lastVal ("Pid") lines).bind parse_i32,
          (lastVal ("PPid") lines).bind parse_i32 with
      | some n, some p, some pp => some { name := n, pid := p, ppid := pp }
      | _, _, _ => none :=
  get_process_record_lasts lines h

/-- Witness for C7: key repetitions are decided by the last occurrence; here
the last `Pid` line fails to parse, so no record results even though an
earlier `Pid` line had parsed. -/
theorem claim_C7_witness :
    (("" : String) ∉
        ["Pid: 1", "Name: a", "Name: b", "Pid: 2", "PPid: 0", "Pid: zz"]) ∧
      get_process_record
          ["Pid: 1", "Name: a", "Name: b", "Pid: 2", "PPid: 0", "Pid: zz"] =
        match
          lastVal ("Name")
            ["Pid: 1", "Name: a", "Name: b", "Pid: 2", "PPid: 0", "Pid: zz"],
          (lastVal ("Pid")
            ["Pid: 1", "Name: a", "Name: b", "Pid: 2", "PPid: 0", "Pid: zz"]).bind
            parse_i32,
          (lastVal ("PPid")
            ["Pid: 1", "Name: a", "Name: b", "Pid: 2", "PPid: 0", "Pid: zz"]).bind
            parse_i32 with
        | some n, some p, some pp => some { name := n, pid := p, ppid := pp }
        | _, _, _ => none :=
  ⟨by decide, claim_C7 _ (by decide)⟩

/-- C6: a descriptor line splits at its first colon only: the key is the text
before the first colon and the value the entire remainder (later colons
preserved verbatim), both trimmed of surrounding whitespace; a line with no
colon yields nothing. -/
theorem claim_C6 :
    (∀ a b : List Char, (':' : Char) ∉ a →
      lineKV (String.mk (a ++ ':' :: b)) =
        some (String.mk (trimChars a), String.mk (trimChars b))) ∧
    (∀ c : List Char, (':' : Char) ∉ c → lineKV (String.mk c) = none) := by
  constructor
  · intro a b ha
    unfold lineKV
    have hl : (String.mk (a ++ ':' :: b)).toList = a ++ ':' :: b := rfl
    rw [hl, splitFirst_append ':' a b ha]
    rfl
  · intro c hc
    unfold lineKV
    have hl : (String.mk c).toList = c := rfl
    rw [hl, splitFirst_none ':' c hc]
    rfl

/-- Witness for C6: a value containing a further colon is preserved verbatim
up to trimming, and a colon-free line yields nothing. -/
theorem claim_C6_witness :
    ((':' : Char) ∉ ['N', 'a'] ∧
      lineKV (String.mk (['N', 'a'] ++ ':' :: [' ', 'b', ':', 'c'])) =
        some (String.mk (trimChars ['N', 'a']),
          String.mk (trimChars [' ', 'b', ':', 'c']))) ∧
    ((':' : Char) ∉ ['x', 'y'] ∧ lineKV (String.mk ['x', 'y']) = none) :=
  ⟨⟨by decide, claim_C6.1 ['N', 'a'] [' ', 'b', ':', 'c'] (by decide)⟩,
   ⟨by decide, claim_C6.2 ['x', 'y'] (by decide)⟩⟩

/-- C3: for well-formed descriptor content (no tracked key on two lines), a
record is produced iff a `Name` line is present and `Pid` and `PPid` lines
are present whose values parse as signed integers; otherwise no record at
all is produced for the entry. -/
theorem claim_C3 (lines : List String) (h : ("" : String) ∉ lines)
    (huN : (kvs lines).countP (fun p => p.1 == "Name") ≤ 1)
    (huP : (kvs lines).countP (fun p => p.1 == "Pid") ≤ 1)
    (huPP : (kvs lines).countP (fun p => p.1 == "PPid") ≤ 1) :
    (get_process_record lines).isSome ↔
      ((∃ v, (("Name", v) : String × String) ∈ kvs lines) ∧
       (∃ v, (("Pid", v) : String × String) ∈ kvs lines ∧
          (parse_i32 v).isSome) ∧
       (∃ v, (("PPid", v) : String × String) ∈ kvs lines ∧
          (parse_i32 v).isSome)) := by
  rw [get_process_record_lasts lines h]
  have hm : ∀ (a : Option String) (b c : Option Int),
      (match a, b, c with
        | some n, some p, some pp =>
            some ({ name := n, pid := p, ppid := pp } : ProcessRecord)
        | _, _, _ => none).isSome ↔ a.isSome ∧ b.isSome ∧ c.isSome := by
    intro a b c
    cases a <;> cases b <;> cases c <;> simp
  rw [hm]
  constructor
  · rintro ⟨hN, hP, hPP⟩
    obtain ⟨vN, hvN⟩ := Option.isSome_iff_exists.mp hN
    obtain ⟨pP, hpP⟩ := Option.isSome_iff_exists.mp hP
    obtain ⟨vP, hvP, hparseP⟩ := Option.bind_eq_some.mp hpP
    obtain ⟨pPP, hpPP⟩ := Option.isSome_iff_exists.mp hPP
    obtain ⟨vPP, hvPP, hparsePP⟩ := Option.bind_eq_some.mp hpPP
    exact ⟨⟨vN, lastVal_mem hvN⟩,
      ⟨vP, lastVal_mem hvP, by simp [hparseP]⟩,
      ⟨vPP, lastVal_mem hvPP, by simp [hparsePP]⟩⟩
  · rintro ⟨⟨vN, hvN⟩, ⟨vP, hvP, hvPs⟩, ⟨vPP, hvPP, hvPPs⟩⟩
    refine ⟨?_, ?_, ?_⟩
    · rw [lastVal_of_unique huN hvN]
      rfl
    · rw [lastVal_of_unique huP hvP]
      simpa using hvPs
    · rw [lastVal_of_unique huPP hvPP]
      simpa using hvPPs

/-- Witness for C3: a well-formed three-line descriptor yields a record, and
the individual field presences hold as the equivalence states. -/
theorem claim_C3_witness :
    ((("" : String) ∉ ["Name: init", "Pid: 1", "PPid: 0"]) ∧
      (kvs ["Name: init", "Pid: 1", "PPid: 0"]).countP
          (fun p => p.1 == "Name") ≤ 1 ∧
      (kvs ["Name: init", "Pid: 1", "PPid: 0"]).countP
          (fun p => p.1 == "Pid") ≤ 1 ∧
      (kvs ["Name: init", "Pid: 1", "PPid: 0"]).countP
          (fun p => p.1 == "PPid") ≤ 1) ∧
    ((get_process_record ["Name: init", "Pid: 1", "PPid: 0"]).isSome ↔
      ((∃ v, (("Name", v) : String × String) ∈
          kvs ["Name: init", "Pid: 1", "PPid: 0"]) ∧
       (∃ v, (("Pid", v) : String × String) ∈
          kvs ["Name: init", "Pid: 1", "PPid: 0"] ∧ (parse_i32 v).isSome) ∧
       (∃ v, (("PPid", v) : String × String) ∈
          kvs ["Name: init", "Pid: 1", "PPid: 0"] ∧ (parse_i32 v).isSome))) :=
  ⟨⟨by decide, by decide, by decide, by decide⟩,
    claim_C3 _ (by decide) (by decide) (by decide) (by decide)⟩

/-- C10: the `pid_map[child_pid]` index (line 127) never hits a missing key:
tree population never panics, whatever the records, the fuel, and the start
node, because every pid stored in any children vector of the parent-pid index
was inserted into the pid map from the same record in the same pass. -/
theorem claim_C10 :
    (∀ (fuel : Nat) (records : List ProcessRecord) (node : ProcessTreeNode),
      populate_node fuel node records ≠ .error .panic) ∧
    (∀ (records : List ProcessRecord) (p : Int) (l : List Int) (q : Int),
      ppid_map_of records p = some l → q ∈ l →
        (pid_map_of records q).isSome) :=
  ⟨fun fuel records node => populate_node_helper_no_panic records fuel node,
   fun records p l q hl hq => ppid_map_pids_resolve records p l q hl hq⟩

/-- Witness for C10: on a concrete record list, the children vector at key 0
holds pid 1, and the pid map resolves it. -/
theorem claim_C10_witness :
    populate_node 2 (.mk rootRecord [])
        [{ name := "init", pid := 1, ppid := 0 }] ≠ .error .panic ∧
    ppid_map_of [{ name := "init", pid := 1, ppid := 0 }] 0 = some [1] ∧
    (pid_map_of [{ name := "init", pid := 1, ppid := 0 }] 1).isSome :=
  ⟨claim_C10.1 2 _ _, by decide,
    claim_C10.2 [{ name := "init", pid := 1, ppid := 0 }] 0 [1] 1 (by decide)
      (by decide)⟩

/-- Population of a two-node star: a root whose child list names the same
child pid twice yields two child nodes, both carrying the record the pid map
resolves the pid to. -/
theorem helper_two_children (pm : Int → Option ProcessRecord)
    (cm : Int → Option (List Int)) (r root : ProcessRecord)
    (hcm0 : cm root.pid = some [r.pid, r.pid]) (hcmp : cm r.pid = none)
    (hpm : pm r.pid = some r) :
    populate_node_helper 3 pm cm (.mk root []) =
      .ok (.mk root [.mk r [], .mk r []]) := by
  simp only [populate_node_helper, populate_children, ProcessTreeNode.record,
    ProcessTreeNode.children, hcm0, hcmp, hpm, List.nil_append,
    List.append_nil]

/-- C2 (amended): with two records sharing a pid, the later-observed record
does win in the pid index, and every tree node carrying that pid carries the
later-observed record; but the tree need not contain exactly one node with
that pid: the builder pushes the pid into the children index once per record,
so when both duplicates name the same parent the tree holds two nodes with
that pid (one per duplicate), both carrying the later-observed record. -/
theorem claim_C2 (n1 n2 : String) (p : Int) (hp : p ≠ 0) :
    pid_map_of [{ name := n1, pid := p, ppid := 0 },
        { name := n2, pid := p, ppid := 0 }] p =
      some { name := n2, pid := p, ppid := 0 } ∧
    build_process_tree 3 [{ name := n1, pid := p, ppid := 0 },
        { name := n2, pid := p, ppid := 0 }] =
      .ok (.mk rootRecord [.mk { name := n2, pid := p, ppid := 0 } [],
        .mk { name := n2, pid := p, ppid := 0 } []]) ∧
    countPid (.mk rootRecord [.mk { name := n2, pid := p, ppid := 0 } [],
        .mk { name := n2, pid := p, ppid := 0 } []]) p = 2 ∧
    (∀ x ∈ recordsOf (.mk rootRecord
        [.mk { name := n2, pid := p, ppid := 0 } [],
         .mk { name := n2, pid := p, ppid := 0 } []]),
      x.pid = p → x = { name := n2, pid := p, ppid := 0 }) := by
  have hpm : pid_map_of [{ name := n1, pid := p, ppid := 0 },
      { name := n2, pid := p, ppid := 0 }] p =
      some { name := n2, pid := p, ppid := 0 } := by
    simp [pid_map_of]
  have hcm0 : ppid_map_of [{ name := n1, pid := p, ppid := 0 },
      { name := n2, pid := p, ppid := 0 }] 0 = some [p, p] := by
    simp [ppid_map_of]
  have hcmp : ppid_map_of [{ name := n1, pid := p, ppid := 0 },
      { name := n2, pid := p, ppid := 0 }] p = none := by
    simp [ppid_map_of, hp]
  refine ⟨hpm, ?_, ?_, ?_⟩
  · show populate_node_helper 3 _ _ (.mk rootRecord []) = _
    exact helper_two_children _ _ { name := n2, pid := p, ppid := 0 }
      rootRecord (by simpa [rootRecord] using hcm0) (by simpa using hcmp)
      (by simpa using hpm)
  · have hb : ((0 : Int) == p) = false := by
      simpa using fun he => hp he.symm
    simp [countPid, recordsOf, preorder, preorderList, rootRecord,
      List.countP_cons, hb]
  · intro x hx hxp
    have hx' : x = rootRecord ∨ x = { name := n2, pid := p, ppid := 0 } ∨
        x = { name := n2, pid := p, ppid := 0 } := by
      simpa [recordsOf, preorder, preorderList] using hx
    rcases hx' with rfl | rfl | rfl
    · have h0 : (0 : Int) = p := by simpa [rootRecord] using hxp
      exact absurd h0.symm hp
    · rfl
    · rfl

/-- Counterexample to C2 as stated: two records with pid 5 and ppid 0; the
later record wins the pid index, but the built tree carries pid 5 on two
nodes, not one. -/
theorem claim_C2_counterexample :
    pid_map_of [{ name := "a", pid := 5, ppid := 0 },
        { name := "b", pid := 5, ppid := 0 }] 5 =
      some { name := "b", pid := 5, ppid := 0 } ∧
    build_process_tree 3 [{ name := "a", pid := 5, ppid := 0 },
        { name := "b", pid := 5, ppid := 0 }] =
      .ok (.mk rootRecord [.mk { name := "b", pid := 5, ppid := 0 } [],
        .mk { name := "b", pid := 5, ppid := 0 } []]) ∧
    ¬ countPid (.mk rootRecord [.mk { name := "b", pid := 5, ppid := 0 } [],
        .mk { name := "b", pid := 5, ppid := 0 } []]) 5 = 1 := by
  refine ⟨by decide, rfl, ?_⟩
  have h2 : countPid (.mk rootRecord
      [.mk { name := "b", pid := 5, ppid := 0 } [],
       .mk { name := "b", pid := 5, ppid := 0 } []]) 5 = 2 := by
    simp [countPid, recordsOf, preorder, preorderList, rootRecord,
      List.countP_cons]
  rw [h2]
  decide

/-- Witness for C2 (amended) at a concrete duplicate pair. -/
theorem claim_C2_witness :
    (5 : Int) ≠ 0 ∧
    (pid_map_of [{ name := "a", pid := 5, ppid := 0 },
        { name := "b", pid := 5, ppid := 0 }] 5 =
      some { name := "b", pid := 5, ppid := 0 } ∧
    build_process_tree 3 [{ name := "a", pid := 5, ppid := 0 },
        { name := "b", pid := 5, ppid := 0 }] =
      .ok (.mk rootRecord [.mk { name := "b", pid := 5, ppid := 0 } [],
        .mk { name := "b", pid := 5, ppid := 0 } []]) ∧
    countPid (.mk rootRecord [.mk { name := "b", pid := 5, ppid := 0 } [],
        .mk { name := "b", pid := 5, ppid := 0 } []]) 5 = 2 ∧
    (∀ x ∈ recordsOf (.mk rootRecord
        [.mk { name := "b", pid := 5, ppid := 0 } [],
         .mk { name := "b", pid := 5, ppid := 0 } []]),
      x.pid = 5 → x = { name := "b", pid := 5, ppid := 0 })) :=
  ⟨by decide, claim_C2 "a" "b" 5 (by decide)⟩

/-- The indentation loop emits two spaces per level. -/
theorem indentOf_eq (n : Nat) :
    indentOf n = String.mk (List.replicate (2 * n) ' ') := by
  induction n with
  | zero => rfl
  | succ n ih =>
    have h2 : 2 * (n + 1) = (2 * n) + 1 + 1 := by omega
    rw [indentOf, ih, h2, List.replicate_succ, List.replicate_succ]
    rfl

mutual
/-- The lines of `print_node` are the pre-order listing rendered by the
specification's line format. -/
theorem print_node_eq_preorder (t : ProcessTreeNode) (d : Nat) :
    print_node t d = (preorder t d).map specLine := by
  cases t with
  | mk r cs =>
    rw [print_node, preorder, print_node_rest_eq_preorder cs (d + 1)]
    simp [specLine, indentOf_eq]
termination_by sizeOf t

/-- Forest version of `print_node_eq_preorder`. -/
theorem print_node_rest_eq_preorder (cs : List ProcessTreeNode) (d : Nat) :
    print_node_rest cs d = (preorderList cs d).map specLine := by
  cases cs with
  | nil => rw [print_node_rest, preorderList]; rfl
  | cons c cs =>
    rw [print_node_rest, preorderList, List.map_append,
      print_node_eq_preorder c d, print_node_rest_eq_preorder cs d]
termination_by sizeOf cs
end

/-- C8: rendering is the pre-order depth-first traversal from the root,
one line per node of the form `<indent>- <name> #<pid>` with the indent two
spaces per depth level, children visited in stored order; consequently the
output has exactly one line per pre-order node. -/
theorem claim_C8 :
    ∀ (t : ProcessTreeNode) (d : Nat),
      print_node t d = (preorder t d).map specLine ∧
      (print_node t d).length = (preorder t d).length :=
  fun t d => ⟨print_node_eq_preorder t d, by
    rw [print_node_eq_preorder t d, List.length_map]⟩

/-- The end of a chain is a stored record. -/
theorem reach_mem {records : List ProcessRecord} {p : Int} {s : ProcessRecord}
    {n : Nat} (h : ReachAt records p s n) : s ∈ records := by
  induction h with
  | base hs _ => exact hs
  | step _ _ _ ih => exact ih

/-- Chains have positive length. -/
theorem reach_pos {records : List ProcessRecord} {p : Int} {s : ProcessRecord}
    {n : Nat} (h : ReachAt records p s n) : 1 ≤ n := by
  induction h with
  | base _ _ => exact le_refl 1
  | step _ _ _ _ => omega

/-- Decomposition of a chain at its far end: either it is the single step to
`s`, or it passes through the record whose pid `s` names as its ppid. -/
theorem reach_snoc {records : List ProcessRecord} {p : Int} {s : ProcessRecord}
    {n : Nat} (h : ReachAt records p s n) :
    (n = 1 ∧ s ∈ records ∧ s.ppid = p) ∨
    (∃ n' r, n = n' + 1 ∧ r ∈ records ∧ ReachAt records p r n' ∧
      s ∈ records ∧ s.ppid = r.pid) := by
  induction h with
  | base hs hp => exact Or.inl ⟨rfl, hs, hp⟩
  | step hr hp hrest ih =>
    rcases ih with ⟨h1, hs, hsp⟩ | ⟨n', r', hn, hr', hchain, hs, hsp⟩
    · subst h1
      exact Or.inr ⟨1, _, rfl, hr, ReachAt.base hr hp, hs, hsp⟩
    · subst hn
      exact Or.inr ⟨n' + 1, r', rfl, hr',
        ReachAt.step hr hp hchain, hs, hsp⟩

/-- Chains compose: a chain to `r` extends by a chain from `r.pid`. -/
theorem reach_trans {records : List ProcessRecord} {p : Int}
    {r s : ProcessRecord} {d k : Nat} (h1 : ReachAt records p r d)
    (h2 : ReachAt records r.pid s k) : ReachAt records p s (d + k) := by
  revert h2
  induction h1 with
  | base hs hp =>
    intro h2
    have h3 := ReachAt.step hs hp h2
    have he : k + 1 = 1 + k := by omega
    exact he ▸ h3
  | step hr hp _ ih =>
    intro h2
    have h3 := ReachAt.step hr hp (ih h2)
    convert h3 using 1
    omega

/-- One more edge extends a chain by one step at the far end. -/
theorem reach_extend {records : List ProcessRecord} {p : Int}
    {r s : ProcessRecord} {d : Nat} (h1 : ReachAt records p r d)
    (hs : s ∈ records) (hp : s.ppid = r.pid) : ReachAt records p s (d + 1) :=
  reach_trans h1 (ReachAt.base hs hp)

/-- With distinct nonzero pids, the length of a chain from pid 0 to a record
is unique: each record has one well-defined depth. -/
theorem reach_level_unique {records : List ProcessRecord}
    (hN : (records.map (fun r => r.pid)).Nodup)
    (h0 : ∀ r ∈ records, r.pid ≠ 0) :
    ∀ n : Nat, ∀ {s : ProcessRecord} {m : Nat}, ReachAt records 0 s n →
      ReachAt records 0 s m → n = m := by
  intro n
  induction n using Nat.strong_induction_on with
  | _ n IH =>
    intro s m h1 h2
    rcases reach_snoc h1 with ⟨rfl, hs, hsp⟩ | ⟨n', r1, rfl, hr1, hc1, hs, hsp⟩
    · rcases reach_snoc h2 with ⟨rfl, _, _⟩ | ⟨m', r2, rfl, hr2, hc2, _, hsp2⟩
      · rfl
      · exact absurd (hsp2.symm.trans hsp) (h0 r2 hr2)
    · rcases reach_snoc h2 with ⟨rfl, _, hsp2⟩ | ⟨m', r2, rfl, hr2, hc2, _, hsp2⟩
      · exact absurd (hsp.symm.trans hsp2) (h0 r1 hr1)
      · have hr12 : r1 = r2 := pid_inj hN hr1 hr2 (hsp.symm.trans hsp2)
        subst hr12
        have hn' : 1 ≤ n' := reach_pos hc1
        have := IH n' (by omega) hc1 hc2
        omega

/-- With distinct pids, equal-length chains ending at the same record start
at the same pid. -/
theorem reach_start_unique {records : List ProcessRecord}
    (hN : (records.map (fun r => r.pid)).Nodup) :
    ∀ k : Nat, ∀ {p1 p2 : Int} {s : ProcessRecord}, ReachAt records p1 s k →
      ReachAt records p2 s k → p1 = p2 := by
  intro k
  induction k using Nat.strong_induction_on with
  | _ k IH =>
    intro p1 p2 s h1 h2
    rcases reach_snoc h1 with ⟨rfl, hs, hsp⟩ | ⟨n', r1, rfl, hr1, hc1, hs, hsp⟩
    · rcases reach_snoc h2 with ⟨_, _, hsp2⟩ | ⟨m', r2, hm, hr2, hc2, _, hsp2⟩
      · exact hsp.symm.trans hsp2
      · have := reach_pos hc2
        omega
    · rcases reach_snoc h2 with ⟨hm, _, hsp2⟩ | ⟨m', r2, hm, hr2, hc2, _, hsp2⟩
      · have := reach_pos hc1
        omega
      · have hmn : m' = n' := by omega
        subst hmn
        have hr12 : r1 = r2 := pid_inj hN hr1 hr2 (hsp.symm.trans hsp2)
        subst hr12
        exact IH m' (by omega) hc1 hc2

/-- A chain from pid 0 materialises as a duplicate-free list of records:
its elements sit at pairwise-distinct depths. -/
theorem reach_chain_list {records : List ProcessRecord}
    (hN : (records.map (fun r => r.pid)).Nodup)
    (h0 : ∀ r ∈ records, r.pid ≠ 0) :
    ∀ n : Nat, ∀ {s : ProcessRecord}, ReachAt records 0 s n →
      ∃ l : List ProcessRecord, l.length = n ∧ l.Nodup ∧
        (∀ x ∈ l, x ∈ records) ∧
        (∀ x ∈ l, ∃ k, 1 ≤ k ∧ k ≤ n ∧ ReachAt records 0 x k) := by
  intro n
  induction n using Nat.strong_induction_on with
  | _ n IH =>
    intro s h
    rcases reach_snoc h with ⟨rfl, hs, hsp⟩ | ⟨n', r, rfl, hr, hc, hs, hsp⟩
    · refine ⟨[s], rfl, List.nodup_singleton s, ?_, ?_⟩
      · intro x hx
        rw [List.mem_singleton] at hx
        exact hx ▸ hs
      · intro x hx
        rw [List.mem_singleton] at hx
        exact ⟨1, le_refl 1, le_refl 1, hx ▸ h⟩
    · obtain ⟨l', hlen, hnd, hmem, hlvl⟩ := IH n' (by omega) hc
      have hsnot : s ∉ l' := by
        intro hsl
        obtain ⟨k, hk1, hkn, hks⟩ := hlvl s hsl
        have := reach_level_unique hN h0 k hks h
        omega
      refine ⟨l' ++ [s], by simp [hlen], ?_, ?_, ?_⟩
      · rw [List.nodup_append]
        exact ⟨hnd, List.nodup_singleton s, by
          intro a ha has
          rw [List.mem_singleton] at has
          exact hsnot (has ▸ ha)⟩
      · intro x hx
        rcases List.mem_append.mp hx with hx | hx
        · exact hmem x hx
        · rw [List.mem_singleton] at hx
          exact hx ▸ hs
      · intro x hx
        rcases List.mem_append.mp hx with hx | hx
        · obtain ⟨k, hk1, hkn, hks⟩ := hlvl x hx
          exact ⟨k, hk1, by omega, hks⟩
        · rw [List.mem_singleton] at hx
          exact ⟨n' + 1, by omega, le_refl _, hx ▸ h⟩

/-- Depths are bounded by the number of records. -/
theorem reach_level_le {records : List ProcessRecord}
    (hN : (records.map (fun r => r.pid)).Nodup)
    (h0 : ∀ r ∈ records, r.pid ≠ 0) {s : ProcessRecord} {n : Nat}
    (h : ReachAt records 0 s n) : n ≤ records.length := by
  obtain ⟨l, hlen, hnd, hmem, _⟩ := reach_chain_list hN h0 n h
  have := (hnd.subperm hmem).length_le
  omega

/-- A zero-length pid path is trivial. -/
theorem pidpath_zero {records : List ProcessRecord} {a b : Int}
    (h : PidPath records a b 0) : a = b := by
  cases h
  rfl

/-- A nonempty pid path ends at the pid of the record ending a chain. -/
theorem pidpath_to_reach {records : List ProcessRecord} {q p : Int} {n : Nat}
    (h : PidPath records q p n) (hn : 1 ≤ n) :
    ∃ s, ReachAt records q s n ∧ s.pid = p := by
  induction h with
  | refl => omega
  | step hr hp hrest ih =>
    rename_i r a b n'
    cases n' with
    | zero => exact ⟨r, ReachAt.base hr hp, pidpath_zero hrest⟩
    | succ n'' =>
      obtain ⟨s, hs, hsp⟩ := ih (by omega)
      exact ⟨s, ReachAt.step hr hp hs, hsp⟩

/-- A record chain induces the pid path of its pids. -/
theorem reach_to_pidpath {records : List ProcessRecord} {q : Int}
    {s : ProcessRecord} {n : Nat} (h : ReachAt records q s n) :
    PidPath records q s.pid n := by
  induction h with
  | base hs hp => exact PidPath.step hs hp (PidPath.refl _)
  | step hr hp _ ih => exact PidPath.step hr hp ih

/-- A pid path extends along one more record edge. -/
theorem pidpath_extend {records : List ProcessRecord} {a p : Int} {d : Nat}
    (h : PidPath records a p d) {r : ProcessRecord} (hr : r ∈ records)
    (hp : r.ppid = p) : PidPath records a r.pid (d + 1) := by
  induction h with
  | refl => exact PidPath.step hr hp (PidPath.refl _)
  | step hr' hp' _ ih => exact PidPath.step hr' hp' (ih hp)

/-- Pid paths are exactly the materialised pid chains of matching length. -/
theorem pidpath_iff_chain {records : List ProcessRecord} {a b : Int} {n : Nat} :
    PidPath records a b n ↔
      ∃ l : List Int, l.length = n ∧ IsPidChain records a l b := by
  constructor
  · intro h
    induction h with
    | refl p => exact ⟨[], rfl, IsPidChain.nil p⟩
    | step hr hp _ ih =>
      obtain ⟨l, hlen, hch⟩ := ih
      exact ⟨_ :: l, by simp [hlen], IsPidChain.cons hr hp hch⟩
  · rintro ⟨l, rfl, hch⟩
    induction hch with
    | nil a => exact PidPath.refl a
    | cons hr hp _ ih => exact PidPath.step hr hp ih

/-- Every element of a pid chain is the pid of a stored record. -/
theorem chain_elem_pids {records : List ProcessRecord} {a b : Int}
    {l : List Int} (h : IsPidChain records a l b) :
    ∀ x ∈ l, x ∈ records.map (fun r => r.pid) := by
  induction h with
  | nil a => intro x hx; simp at hx
  | cons hr _ _ ih =>
    intro x hx
    rcases List.mem_cons.mp hx with rfl | hx
    · exact List.mem_map.mpr ⟨_, hr, rfl⟩
    · exact ih x hx

/-- A pid chain reaches any of its members by a prefix chain. -/
theorem chain_mem_split {records : List ProcessRecord} {a b x : Int}
    {l : List Int} (h : IsPidChain records a l b) (hx : x ∈ l) :
    ∃ l1 l2, l = l1 ++ x :: l2 ∧ IsPidChain records a (l1 ++ [x]) x ∧
      IsPidChain records x l2 b := by
  induction h with
  | nil a => simp at hx
  | cons hr hp hrest ih =>
    rename_i r a' b' l'
    rcases List.mem_cons.mp hx with rfl | hx
    · exact ⟨[], l', rfl,
        IsPidChain.cons hr hp (IsPidChain.nil _), hrest⟩
    · obtain ⟨l1, l2, heq, hpre, hsuf⟩ := ih hx
      exact ⟨r.pid :: l1, l2, by simp [heq],
        IsPidChain.cons hr hp hpre, hsuf⟩

/-- A duplicated pid on a chain yields a reachable nontrivial pid cycle. -/
theorem chain_cycle_of_dup {records : List ProcessRecord} {a b : Int}
    {l : List Int} (h : IsPidChain records a l b) (hd : ¬l.Nodup) :
    ∃ x m k, PidPath records a x m ∧ 0 < k ∧ PidPath records x x k := by
  induction h with
  | nil a => simp at hd
  | cons hr hp hrest ih =>
    rename_i r a' b' l'
    by_cases hmem : r.pid ∈ l'
    · obtain ⟨l1, l2, heq, hpre, _⟩ := chain_mem_split hrest hmem
      refine ⟨r.pid, 1, l1.length + 1,
        PidPath.step hr hp (PidPath.refl _), by omega, ?_⟩
      exact pidpath_iff_chain.mpr ⟨l1 ++ [r.pid], by simp, hpre⟩
    · have hd' : ¬l'.Nodup := by
        intro hnd
        exact hd (List.nodup_cons.mpr ⟨hmem, hnd⟩)
      obtain ⟨x, m, k, hpath, hk, hcyc⟩ := ih hd'
      exact ⟨x, m + 1, k, PidPath.step hr hp hpath, hk, hcyc⟩

/-- Under acyclicity of the pid edges reachable from pid 0, pid paths from 0
are no longer than the record count. -/
theorem pidpath_len_le_of_acyclic {records : List ProcessRecord}
    (hacyc : ∀ (p : Int) (n k : Nat), PidPath records 0 p n → 0 < k →
      ¬PidPath records p p k)
    {p : Int} {n : Nat} (h : PidPath records 0 p n) : n ≤ records.length := by
  obtain ⟨l, hlen, hch⟩ := pidpath_iff_chain.mp h
  by_cases hnd : l.Nodup
  · have hsub : l ⊆ records.map (fun r => r.pid) := chain_elem_pids hch
    have := (hnd.subperm hsub).length_le
    simpa [hlen] using this
  · obtain ⟨x, m, k, hpath, hk, hcyc⟩ := chain_cycle_of_dup hch hnd
    exact absurd hcyc (hacyc x m k hpath hk)

/-- With distinct nonzero pids, pid paths from 0 are no longer than the
record count. -/
theorem pidpath_len_le_of_nodup {records : List ProcessRecord}
    (hN : (records.map (fun r => r.pid)).Nodup)
    (h0 : ∀ r ∈ records, r.pid ≠ 0)
    {p : Int} {n : Nat} (h : PidPath records 0 p n) : n ≤ records.length := by
  cases n with
  | zero => omega
  | succ n' =>
    obtain ⟨s, hs, _⟩ := pidpath_to_reach h (by omega)
    exact reach_level_le hN h0 hs

mutual
/-- Pre-order listings at shifted depth are depth-shifted listings. -/
theorem preorder_shift (t : ProcessTreeNode) (d k : Nat) :
    preorder t (d + k) = (preorder t d).map (fun x => (x.1 + k, x.2)) := by
  cases t with
  | mk r cs =>
    rw [preorder, preorder, List.map_cons]
    have := preorderList_shift cs (d + 1) k
    rw [show d + k + 1 = d + 1 + k by omega, this]
termination_by sizeOf t

/-- Forest version of `preorder_shift`. -/
theorem preorderList_shift (cs : List ProcessTreeNode) (d k : Nat) :
    preorderList cs (d + k) = (preorderList cs d).map (fun x => (x.1 + k, x.2)) := by
  cases cs with
  | nil => rw [preorderList, preorderList]; rfl
  | cons c cs =>
    rw [preorderList, preorderList, List.map_append, preorder_shift c d k,
      preorderList_shift cs d k]
termination_by sizeOf cs
end

/-- Membership in a shifted pre-order listing. -/
theorem preorder_mem_shift {t : ProcessTreeNode} {d a : Nat}
    {s : ProcessRecord} :
    (a, s) ∈ preorder t d ↔ ∃ a0, (a0, s) ∈ preorder t 0 ∧ a = a0 + d := by
  have h := preorder_shift t 0 d
  rw [Nat.zero_add] at h
  rw [h, List.mem_map]
  constructor
  · rintro ⟨⟨a0, s0⟩, hmem, heq⟩
    simp at heq
    exact ⟨a0, heq.2 ▸ hmem, heq.1.symm⟩
  · rintro ⟨a0, hmem, rfl⟩
    exact ⟨(a0, s), hmem, rfl⟩

/-- Membership in a forest listing is membership in one tree's listing. -/
theorem preorderList_mem {cs : List ProcessTreeNode} {d : Nat}
    {x : Nat × ProcessRecord} :
    x ∈ preorderList cs d ↔ ∃ c ∈ cs, x ∈ preorder c d := by
  induction cs with
  | nil => rw [preorderList]; simp
  | cons c cs ih =>
    rw [preorderList]
    simp only [List.mem_append, ih, List.mem_cons]
    constructor
    · rintro (hx | ⟨c', hc', hx⟩)
      · exact ⟨c, Or.inl rfl, hx⟩
      · exact ⟨c', Or.inr hc', hx⟩
    · rintro ⟨c', hc' | hc', hx⟩
      · exact Or.inl (hc' ▸ hx)
      · exact Or.inr ⟨c', hc', hx⟩

/-- The records of a listing do not depend on the starting depth. -/
theorem preorder_snd (t : ProcessTreeNode) (d : Nat) :
    (preorder t d).map Prod.snd = recordsOf t := by
  have h := preorder_shift t 0 d
  rw [Nat.zero_add] at h
  rw [recordsOf, h, List.map_map]
  rfl

/-- Unfolding of `recordsOf` at a node. -/
theorem recordsOf_mk (r : ProcessRecord) (cs : List ProcessTreeNode) :
    recordsOf (.mk r cs) = r :: (preorderList cs 1).map Prod.snd := by
  rw [recordsOf, preorder]
  rfl

/-- A left member of a `Forall₂` relates to some right member. -/
theorem forall₂_mem_left {α β : Type} {R : α → β → Prop} {l1 : List α}
    {l2 : List β} (h : List.Forall₂ R l1 l2) {a : α} (ha : a ∈ l1) :
    ∃ b ∈ l2, R a b := by
  induction h with
  | nil => simp at ha
  | cons hab hrest ih =>
    rcases List.mem_cons.mp ha with rfl | ha
    · exact ⟨_, by simp, hab⟩
    · obtain ⟨b, hb, hr⟩ := ih ha
      exact ⟨b, by simp [hb], hr⟩

/-- A right member of a `Forall₂` relates to some left member. -/
theorem forall₂_mem_right {α β : Type} {R : α → β → Prop} {l1 : List α}
    {l2 : List β} (h : List.Forall₂ R l1 l2) {b : β} (hb : b ∈ l2) :
    ∃ a ∈ l1, R a b := by
  induction h with
  | nil => simp at hb
  | cons hab hrest ih =>
    rcases List.mem_cons.mp hb with rfl | hb
    · exact ⟨_, by simp, hab⟩
    · obtain ⟨a, ha, hr⟩ := ih hb
      exact ⟨a, by simp [ha], hr⟩

/-- When every pid path from 0 is bounded by the record count, population
from a node on a path from pid 0 succeeds with fuel `records.length + 1`
minus the node's depth: the recursion terminates. -/
theorem populate_ok_of_bounded {records : List ProcessRecord}
    (hB : ∀ (p : Int) (n : Nat), PidPath records 0 p n → n ≤ records.length) :
    ∀ (fuel : Nat) (node : ProcessTreeNode) (d : Nat),
      PidPath records 0 node.record.pid d →
      records.length + 1 ≤ fuel + d →
      ∃ t, populate_node_helper fuel (pid_map_of records)
        (ppid_map_of records) node = .ok t := by
  intro fuel
  induction fuel with
  | zero =>
    intro node d hpath hle
    have := hB _ _ hpath
    omega
  | succ fuel ih =>
    intro node d hpath hle
    have hqs : ∀ q ∈ child_pids records node.record.pid,
        ∃ r c, pid_map_of records q = some r ∧
          populate_node_helper fuel (pid_map_of records)
            (ppid_map_of records) (.mk r []) = .ok c := by
      intro q hq
      obtain ⟨w, hw, hwp, hwq⟩ := child_pids_mem.mp hq
      have hsome := pid_map_isSome ⟨w, hw, hwq⟩
      obtain ⟨u, hu⟩ := Option.isSome_iff_exists.mp hsome
      obtain ⟨humem, hupid⟩ := pid_map_mem hu
      have hqpath : PidPath records 0 q (d + 1) := by
        have := pidpath_extend hpath hw hwp
        rwa [hwq] at this
      obtain ⟨c, hc⟩ := ih (.mk u []) (d + 1)
        (by simpa [ProcessTreeNode.record, hupid] using hqpath) (by omega)
      exact ⟨u, c, hu, hc⟩
    obtain ⟨cs, hcs⟩ := @populate_children_ok_of _ _ _ hqs
    refine ⟨_, populate_node_helper_ok_iff.mpr ⟨cs, ?_, rfl⟩⟩
    rw [ppid_map_list]
    exact hcs

/-- In a tree populated from a childless node, every pre-order depth is
below the fuel: the recursion depth is the tree depth. -/
theorem populate_depth_lt {pm : Int → Option ProcessRecord}
    {cm : Int → Option (List Int)} :
    ∀ (fuel : Nat) (node t : ProcessTreeNode),
      populate_node_helper fuel pm cm node = .ok t →
      node.children = [] → ∀ x ∈ preorder t 0, x.1 < fuel := by
  intro fuel
  induction fuel with
  | zero => intro node t h _; simp [populate_node_helper] at h
  | succ fuel ih =>
    intro node t h hch x hx
    obtain ⟨cs, hpc, ht⟩ := populate_node_helper_ok_iff.mp h
    subst ht
    rw [hch, List.nil_append] at hx
    rw [preorder] at hx
    rcases List.mem_cons.mp hx with rfl | hx
    · simp
    · obtain ⟨c, hc, hxc⟩ := preorderList_mem.mp hx
      have hall := populate_children_ok_iff.mp hpc
      obtain ⟨q, hq, r, hpm2, hfc⟩ := forall₂_mem_right hall hc
      obtain ⟨a, s⟩ := x
      obtain ⟨a0, ha0, rfl⟩ := preorder_mem_shift.mp hxc
      have := ih (.mk r []) c hfc rfl (a0, s) ha0
      simp at this ⊢
      omega

/-- Completeness of population: with distinct pids, every record chained
below the start node's pid appears in the populated tree at the depth its
chain length prescribes. -/
theorem populate_complete {records : List ProcessRecord}
    (hN : (records.map (fun r => r.pid)).Nodup) :
    ∀ (fuel : Nat) (r0 : ProcessRecord) (t : ProcessTreeNode),
      populate_node_helper fuel (pid_map_of records) (ppid_map_of records)
        (.mk r0 []) = .ok t →
      ∀ (s : ProcessRecord) (n : Nat), ReachAt records r0.pid s n →
        (n, s) ∈ preorder t 0 := by
  intro fuel
  induction fuel with
  | zero => intro r0 t h; simp [populate_node_helper] at h
  | succ fuel ih =>
    intro r0 t h s n hreach
    obtain ⟨cs, hpc, ht⟩ := populate_node_helper_ok_iff.mp h
    subst ht
    simp only [ProcessTreeNode.record, ProcessTreeNode.children,
      List.nil_append] at hpc ⊢
    rw [ppid_map_list] at hpc
    have hall := populate_children_ok_iff.mp hpc
    rw [preorder]
    cases hreach with
    | base hs hp =>
      have hqmem : s.pid ∈ child_pids records r0.pid :=
        child_pids_mem.mpr ⟨s, hs, hp, rfl⟩
      obtain ⟨c, hc, r, hpm2, hfc⟩ := forall₂_mem_left hall hqmem
      have hrs : r = s := by
        have hself := pid_map_self hN hs
        rw [hself] at hpm2
        exact (Option.some.injEq _ _).mp hpm2.symm
      subst hrs
      refine List.mem_cons.mpr (Or.inr (preorderList_mem.mpr ⟨c, hc, ?_⟩))
      refine preorder_mem_shift.mpr ⟨0, ?_, rfl⟩
      have hrec : c.record = r := populate_node_helper_record hfc
      cases c with
      | mk rc cc =>
        rw [preorder]
        simp only [ProcessTreeNode.record] at hrec
        exact hrec ▸ List.mem_cons.mpr (Or.inl rfl)
    | step hr hp hrest =>
      rename_i r' n'
      have hqmem : r'.pid ∈ child_pids records r0.pid :=
        child_pids_mem.mpr ⟨r', hr, hp, rfl⟩
      obtain ⟨c, hc, u, hpm2, hfc⟩ := forall₂_mem_left hall hqmem
      have hus : u = r' := by
        have hself := pid_map_self hN hr
        rw [hself] at hpm2
        exact (Option.some.injEq _ _).mp hpm2.symm
      subst hus
      have hmem0 := ih u c hfc s n' hrest
      refine List.mem_cons.mpr (Or.inr (preorderList_mem.mpr ⟨c, hc, ?_⟩))
      exact preorder_mem_shift.mpr ⟨n', hmem0, rfl⟩

/-- Two distinct records at the same depth have disjoint subtrees: no record
is equal to, or chained below, both. -/
theorem reach_excl {records : List ProcessRecord}
    (hN : (records.map (fun r => r.pid)).Nodup)
    (h0 : ∀ r ∈ records, r.pid ≠ 0) {u w : ProcessRecord} {d : Nat}
    {s : ProcessRecord} (hu : u ∈ records) (hw : w ∈ records)
    (hud : ReachAt records 0 u (d + 1)) (hwd : ReachAt records 0 w (d + 1))
    (hne : u ≠ w) :
    ¬((s = u ∨ ∃ k, ReachAt records u.pid s k) ∧
      (s = w ∨ ∃ k, ReachAt records w.pid s k)) := by
  rintro ⟨hTu, hTw⟩
  rcases hTu with rfl | ⟨k1, hk1⟩
  · rcases hTw with rfl | ⟨k2, hk2⟩
    · exact hne rfl
    · have htr := reach_trans hwd hk2
      have hlu := reach_level_unique hN h0 (d + 1) hud htr
      have := reach_pos hk2
      omega
  · rcases hTw with rfl | ⟨k2, hk2⟩
    · have htr := reach_trans hud hk1
      have hlu := reach_level_unique hN h0 (d + 1) hwd htr
      have := reach_pos hk1
      omega
    · have h1 := reach_trans hud hk1
      have h2 := reach_trans hwd hk2
      have hkk := reach_level_unique hN h0 _ h1 h2
      have hk12 : k1 = k2 := by omega
      subst hk12
      have hpid := reach_start_unique hN k1 hk1 hk2
      exact hne (pid_inj hN hu hw hpid)

/-- Exact node count of a populated subtree: with distinct nonzero pids,
a record occurs exactly once in the subtree populated from a node at depth
`d` when it is that node's record or chained below its pid, and not at all
otherwise. -/
theorem populate_count {records : List ProcessRecord}
    (hN : (records.map (fun r => r.pid)).Nodup)
    (h0 : ∀ r ∈ records, r.pid ≠ 0) :
    ∀ (fuel : Nat) (r0 : ProcessRecord) (d : Nat) (t : ProcessTreeNode),
      populate_node_helper fuel (pid_map_of records) (ppid_map_of records)
        (.mk r0 []) = .ok t →
      ((r0 = rootRecord ∧ d = 0) ∨ (r0 ∈ records ∧ ReachAt records 0 r0 d)) →
      ∀ s : ProcessRecord,
        ((s = r0 ∨ ∃ k, ReachAt records r0.pid s k) →
          (recordsOf t).count s = 1) ∧
        (¬(s = r0 ∨ ∃ k, ReachAt records r0.pid s k) →
          (recordsOf t).count s = 0) := by
  classical
  intro fuel
  induction fuel with
  | zero => intro r0 d t h; simp [populate_node_helper] at h
  | succ fuel ih =>
    intro r0 d t h hlvl s
    obtain ⟨cs, hpc, ht⟩ := populate_node_helper_ok_iff.mp h
    subst ht
    simp only [ProcessTreeNode.record, ProcessTreeNode.children,
      List.nil_append] at hpc ⊢
    rw [ppid_map_list, child_pids] at hpc
    have hall := populate_children_ok_iff.mp hpc
    rw [List.forall₂_map_left_iff] at hall
    -- no record equals the synthetic root, and r0 is not strictly below
    -- its own pid
    have hroot_not_rec : ∀ x ∈ records, x ≠ rootRecord := by
      intro x hx hxr
      exact h0 x hx (by rw [hxr]; rfl)
    have hself : ¬∃ k, ReachAt records r0.pid r0 k := by
      rintro ⟨k, hk⟩
      rcases hlvl with ⟨rfl, rfl⟩ | ⟨hr0, hd⟩
      · exact hroot_not_rec rootRecord (reach_mem hk) rfl
      · have htr := reach_trans hd hk
        have := reach_level_unique hN h0 d hd htr
        have := reach_pos hk
        omega
    have hchild_lvl : ∀ w ∈ records.filter (fun r => r.ppid = r0.pid),
        w ∈ records ∧ w.ppid = r0.pid ∧ ReachAt records 0 w (d + 1) := by
      intro w hw
      obtain ⟨hwmem, hwp⟩ := List.mem_filter.mp hw
      have hwp' : w.ppid = r0.pid := by simpa using hwp
      refine ⟨hwmem, hwp', ?_⟩
      rcases hlvl with ⟨rfl, rfl⟩ | ⟨hr0, hd⟩
      · exact ReachAt.base hwmem (by simpa [rootRecord] using hwp')
      · exact reach_extend hd hwmem hwp'
    have hnodup : (records.filter (fun r => r.ppid = r0.pid)).Nodup :=
      (List.Nodup.of_map _ hN).filter _
    -- the subtrees of the children partition the records chained below r0
    have haux : ∀ (ws' : List ProcessRecord) (cs' : List ProcessTreeNode),
        List.Forall₂ (fun w c => ∃ r, pid_map_of records w.pid = some r ∧
          populate_node_helper fuel (pid_map_of records)
            (ppid_map_of records) (.mk r []) = .ok c) ws' cs' →
        ws'.Nodup →
        (∀ w ∈ ws', w ∈ records ∧ w.ppid = r0.pid ∧
          ReachAt records 0 w (d + 1)) →
        ((preorderList cs' 1).map Prod.snd).count s =
          if ∃ w ∈ ws', s = w ∨ ∃ k, ReachAt records w.pid s k then 1
          else 0 := by
      intro ws' cs' hall
      induction hall with
      | nil =>
        intro _ _
        rw [preorderList]
        simp
      | cons hwc hrest ihaux =>
        rename_i w c ws'' cs''
        intro hnd hprops
        obtain ⟨r, hpm2, hfc⟩ := hwc
        have hw := hprops w (List.mem_cons.mpr (Or.inl rfl))
        have hrw : r = w := by
          have hself2 := pid_map_self hN hw.1
          rw [hself2] at hpm2
          exact (Option.some.injEq _ _).mp hpm2.symm
        subst hrw
        have hcnt_c := ih r (d + 1) c hfc (Or.inr ⟨hw.1, hw.2.2⟩) s
        have hrest_counts := ihaux (List.nodup_cons.mp hnd).2
          (fun w' hw' => hprops w' (List.mem_cons.mpr (Or.inr hw')))
        rw [preorderList, List.map_append, List.count_append,
          preorder_snd c 1]
        by_cases hTw : s = r ∨ ∃ k, ReachAt records r.pid s k
        · have h1 := hcnt_c.1 hTw
          have hnone : ¬∃ w' ∈ ws'', s = w' ∨
              ∃ k, ReachAt records w'.pid s k := by
            rintro ⟨w', hw', hTw'⟩
            have hp' := hprops w' (List.mem_cons.mpr (Or.inr hw'))
            have hne : r ≠ w' := by
              rintro rfl
              exact (List.nodup_cons.mp hnd).1 hw'
            exact reach_excl hN h0 hw.1 hp'.1 hw.2.2 hp'.2.2 hne ⟨hTw, hTw'⟩
          rw [hrest_counts, if_neg hnone, if_pos
            ⟨r, List.mem_cons.mpr (Or.inl rfl), hTw⟩, h1]
        · have h1 := hcnt_c.2 hTw
          rw [hrest_counts, h1]
          by_cases hrest2 : ∃ w' ∈ ws'', s = w' ∨
              ∃ k, ReachAt records w'.pid s k
          · rw [if_pos hrest2, if_pos (by
              obtain ⟨w', hw', hTw'⟩ := hrest2
              exact ⟨w', List.mem_cons.mpr (Or.inr hw'), hTw'⟩)]
          · rw [if_neg hrest2, if_neg (by
              rintro ⟨w', hw', hTw'⟩
              rcases List.mem_cons.mp hw' with rfl | hw'
              · exact hTw hTw'
              · exact hrest2 ⟨w', hw', hTw'⟩)]
    have hcount := haux _ _ hall hnodup hchild_lvl
    rw [recordsOf_mk, List.count_cons, hcount]
    constructor
    · intro hT
      rcases hT with he | ⟨k, hk⟩
      · have hnone : ¬∃ w ∈ records.filter (fun r => r.ppid = r0.pid),
            s = w ∨ ∃ k, ReachAt records w.pid s k := by
          rintro ⟨w, hw, hTw⟩
          obtain ⟨hwmem, hwp, hwlvl⟩ := hchild_lvl w hw
          rcases hTw with he2 | ⟨k, hk⟩
          · have hrw : r0 = w := he.symm.trans he2
            rcases hlvl with ⟨hroot, hd0⟩ | ⟨hr0, hd⟩
            · exact hroot_not_rec w hwmem (hrw.symm.trans hroot)
            · rw [← hrw] at hwlvl
              have := reach_level_unique hN h0 d hd hwlvl
              omega
          · rw [he] at hk
            exact hself ⟨k + 1, ReachAt.step hwmem hwp hk⟩
        rw [if_neg hnone]
        have hbeq : (r0 == s) = true := by simp [he]
        rw [hbeq]
        simp
      · have hsne : s ≠ r0 := by
          rintro rfl
          exact hself ⟨k, hk⟩
        have hsome : ∃ w ∈ records.filter (fun r => r.ppid = r0.pid),
            s = w ∨ ∃ k, ReachAt records w.pid s k := by
          cases hk with
          | base hs hp =>
            exact ⟨s, List.mem_filter.mpr ⟨hs, by simpa using hp⟩,
              Or.inl rfl⟩
          | step hr hp hrest =>
            rename_i r' n'
            exact ⟨r', List.mem_filter.mpr ⟨hr, by simpa using hp⟩,
              Or.inr ⟨n', hrest⟩⟩
        rw [if_pos hsome]
        have hbeq : (r0 == s) = false := by
          simpa using fun he => hsne he.symm
        rw [hbeq]
        simp
    · intro hT
      push_neg at hT
      obtain ⟨hsne, hnochain⟩ := hT
      have hnone : ¬∃ w ∈ records.filter (fun r => r.ppid = r0.pid),
          s = w ∨ ∃ k, ReachAt records w.pid s k := by
        rintro ⟨w, hw, hTw⟩
        obtain ⟨hwmem, hwp, _⟩ := hchild_lvl w hw
        rcases hTw with rfl | ⟨k, hk⟩
        · exact hnochain 1 (ReachAt.base hwmem hwp)
        · exact hnochain (k + 1) (ReachAt.step hwmem hwp hk)
      rw [if_neg hnone]
      have hbeq : (r0 == s) = false := by
        simpa using fun he => hsne he.symm
      rw [hbeq]
      simp

/-- If a record occurs once among the listed pairs, any two listed depths
for it agree. -/
theorem mem_pairs_count_one {l : List (Nat × ProcessRecord)}
    {s : ProcessRecord} {n m : Nat} (hc : (l.map Prod.snd).count s = 1)
    (h1 : (n, s) ∈ l) (h2 : (m, s) ∈ l) : n = m := by
  by_contra hne
  obtain ⟨l1, l2, rfl⟩ := List.append_of_mem h1
  rw [List.map_append, List.map_cons, List.count_append, List.count_cons] at hc
  simp only [Prod.snd] at hc
  rcases List.mem_append.mp h2 with hm | hm
  · have : s ∈ l1.map Prod.snd := List.mem_map.mpr ⟨(m, s), hm, rfl⟩
    have := List.count_pos_iff.mpr this
    simp at hc
    omega
  · rcases List.mem_cons.mp hm with he | hm
    · have hmn : m = n := congrArg Prod.fst he
      exact hne hmn.symm
    · have : s ∈ l2.map Prod.snd := List.mem_map.mpr ⟨(m, s), hm, rfl⟩
      have := List.count_pos_iff.mpr this
      simp at hc
      omega

/-- Records chained below a pid that no chain from 0 explains (neither 0 nor
the pid of a 0-reachable record) are themselves not reachable from 0. -/
theorem not_reach_of_unreachable_pid {records : List ProcessRecord}
    (hN : (records.map (fun r => r.pid)).Nodup)
    (h0 : ∀ r ∈ records, r.pid ≠ 0) :
    ∀ (n : Nat) {p : Int} {s : ProcessRecord},
      ¬(p = 0 ∨ ∃ u m, ReachAt records 0 u m ∧ u.pid = p) →
      ReachAt records p s n → ¬∃ m, ReachAt records 0 s m := by
  intro n
  induction n using Nat.strong_induction_on with
  | _ n IH =>
    intro p s hnr hps hex
    obtain ⟨m, h0s⟩ := hex
    cases hps with
    | base hs hp =>
      rcases reach_snoc h0s with ⟨_, _, hsp⟩ | ⟨m', r, hm, hr, hc, _, hsp⟩
      · exact hnr (Or.inl (hp.symm.trans hsp))
      · exact hnr (Or.inr ⟨r, m', hc, hsp.symm.trans hp⟩)
    | step hr hp hrest =>
      rename_i r n'
      refine IH n' (by omega) ?_ hrest ⟨m, h0s⟩
      rintro (h0p | ⟨u, mu, hu, hupid⟩)
      · exact h0 r hr h0p
      · have hur : u = r := pid_inj hN (reach_mem hu) hr hupid
        subst hur
        rcases reach_snoc hu with ⟨_, _, hsp⟩ | ⟨m', r2, hm, hr2, hc, _, hsp⟩
        · exact hnr (Or.inl (hp.symm.trans hsp))
        · exact hnr (Or.inr ⟨r2, m', hc, hsp.symm.trans hp⟩)

/-- C4 (amended): for a record set with pairwise-distinct pids, none of them
0, and no dangling or self-referential ppid chains (every record chains back
to pid 0), tree building succeeds with linear fuel, the synthetic root sits
at depth 0, and every record reachable from pid 0 appears in the tree
exactly once, at depth equal to the length of its ppid chain back to 0. -/
theorem claim_C4 (records : List ProcessRecord)
    (hN : (records.map (fun r => r.pid)).Nodup)
    (h0 : ∀ r ∈ records, r.pid ≠ 0)
    (hR : ∀ r ∈ records, ∃ n, ReachAt records 0 r n) :
    ∃ t, build_process_tree (records.length + 1) records = .ok t ∧
      (0, rootRecord) ∈ preorder t 0 ∧
      ∀ (s : ProcessRecord) (n : Nat), ReachAt records 0 s n →
        (recordsOf t).count s = 1 ∧ (n, s) ∈ preorder t 0 ∧
        ∀ m : Nat, (m, s) ∈ preorder t 0 → m = n := by
  have hB := fun (p : Int) (n : Nat) (h : PidPath records 0 p n) =>
    pidpath_len_le_of_nodup hN h0 h
  obtain ⟨t, ht⟩ := populate_ok_of_bounded hB (records.length + 1)
    (.mk rootRecord []) 0 (PidPath.refl 0) (by omega)
  refine ⟨t, ht, ?_, ?_⟩
  · have hrec : t.record = rootRecord := populate_node_helper_record ht
    cases t with
    | mk rt ct =>
      rw [preorder]
      simp only [ProcessTreeNode.record] at hrec
      exact hrec ▸ List.mem_cons.mpr (Or.inl rfl)
  · intro s n hreach
    have hcnt := (populate_count hN h0 (records.length + 1) rootRecord 0 t ht
      (Or.inl ⟨rfl, rfl⟩) s).1 (Or.inr ⟨n, hreach⟩)
    have hmem := populate_complete hN (records.length + 1) rootRecord t ht
      s n hreach
    refine ⟨hcnt, hmem, fun m hm => ?_⟩
    exact mem_pairs_count_one (by rwa [preorder_snd] ) hm hmem

/-- Counterexample to C4 as stated: a duplicated-pid record set in which
every record chains to pid 0 (no dangling, no self-reference), yet the
earlier duplicate, though reachable at depth 1, appears zero times in the
built tree, and the later one twice. -/
theorem claim_C4_counterexample :
    (∀ r ∈ [({ name := "a", pid := 5, ppid := 0 } : ProcessRecord),
        { name := "b", pid := 5, ppid := 0 }],
      ∃ n, ReachAt [({ name := "a", pid := 5, ppid := 0 } : ProcessRecord),
        { name := "b", pid := 5, ppid := 0 }] 0 r n) ∧
    ReachAt [({ name := "a", pid := 5, ppid := 0 } : ProcessRecord),
        { name := "b", pid := 5, ppid := 0 }] 0
      { name := "a", pid := 5, ppid := 0 } 1 ∧
    build_process_tree 3 [({ name := "a", pid := 5, ppid := 0 } : ProcessRecord),
        { name := "b", pid := 5, ppid := 0 }] =
      .ok (.mk rootRecord [.mk { name := "b", pid := 5, ppid := 0 } [],
        .mk { name := "b", pid := 5, ppid := 0 } []]) ∧
    (recordsOf (.mk rootRecord [.mk { name := "b", pid := 5, ppid := 0 } [],
        .mk { name := "b", pid := 5, ppid := 0 } []])).count
      { name := "a", pid := 5, ppid := 0 } = 0 ∧
    (recordsOf (.mk rootRecord [.mk { name := "b", pid := 5, ppid := 0 } [],
        .mk { name := "b", pid := 5, ppid := 0 } []])).count
      { name := "b", pid := 5, ppid := 0 } = 2 := by
  refine ⟨?_, ReachAt.base (by decide) rfl, rfl, ?_, ?_⟩
  · intro r hr
    rcases List.mem_cons.mp hr with rfl | hr
    · exact ⟨1, ReachAt.base (by decide) rfl⟩
    · rcases List.mem_cons.mp hr with rfl | hr
      · exact ⟨1, ReachAt.base (by decide) rfl⟩
      · simp at hr
  · simp only [recordsOf_mk, preorderList, preorder, List.map_append]
    simp [List.count_cons, List.count_append]
    decide
  · simp only [recordsOf_mk, preorderList, preorder, List.map_append]
    simp [List.count_cons, List.count_append]
    decide

/-- Witness for C4 (amended) on a single-record set. -/
theorem claim_C4_witness :
    (([({ name := "init", pid := 1, ppid := 0 } : ProcessRecord)].map
        (fun r => r.pid)).Nodup ∧
      (∀ r ∈ [({ name := "init", pid := 1, ppid := 0 } : ProcessRecord)],
        r.pid ≠ 0) ∧
      (∀ r ∈ [({ name := "init", pid := 1, ppid := 0 } : ProcessRecord)],
        ∃ n, ReachAt [({ name := "init", pid := 1, ppid := 0 } :
          ProcessRecord)] 0 r n)) ∧
    ∃ t, build_process_tree
        ([({ name := "init", pid := 1, ppid := 0 } : ProcessRecord)].length
          + 1)
        [({ name := "init", pid := 1, ppid := 0 } : ProcessRecord)] =
        .ok t ∧
      (0, rootRecord) ∈ preorder t 0 ∧
      ∀ (s : ProcessRecord) (n : Nat),
        ReachAt [({ name := "init", pid := 1, ppid := 0 } : ProcessRecord)]
          0 s n →
        (recordsOf t).count s = 1 ∧ (n, s) ∈ preorder t 0 ∧
        ∀ m : Nat, (m, s) ∈ preorder t 0 → m = n :=
  ⟨⟨by decide, by decide, fun r hr => by
      rcases List.mem_singleton.mp hr with rfl
      exact ⟨1, ReachAt.base (by decide) rfl⟩⟩,
    claim_C4 _ (by decide) (by decide) (fun r hr => by
      rcases List.mem_singleton.mp hr with rfl
      exact ⟨1, ReachAt.base (by decide) rfl⟩)⟩

/-- C5 (amended): in a record list with pairwise-distinct nonzero pids, a
record whose ppid matches no harvested pid and is not 0 is absent from the
built tree, as is everything chained below its pid; building itself succeeds
without error. -/
theorem claim_C5 (records : List ProcessRecord) (o : ProcessRecord)
    (hN : (records.map (fun r => r.pid)).Nodup)
    (h0 : ∀ r ∈ records, r.pid ≠ 0) (ho : o ∈ records)
    (horf : ∀ r ∈ records, r.pid ≠ o.ppid) (ho0 : o.ppid ≠ 0) :
    ∃ t, build_process_tree (records.length + 1) records = .ok t ∧
      (recordsOf t).count o = 0 ∧ (∀ x ∈ preorder t 0, x.2 ≠ o) ∧
      ∀ (s : ProcessRecord) (k : Nat), 0 < k →
        ReachAt records o.pid s k → (recordsOf t).count s = 0 := by
  have hB := fun (p : Int) (n : Nat) (h : PidPath records 0 p n) =>
    pidpath_len_le_of_nodup hN h0 h
  obtain ⟨t, ht⟩ := populate_ok_of_bounded hB (records.length + 1)
    (.mk rootRecord []) 0 (PidPath.refl 0) (by omega)
  have hnro : ¬∃ k, ReachAt records 0 o k := by
    rintro ⟨k, hk⟩
    rcases reach_snoc hk with ⟨_, _, hsp⟩ | ⟨k', r, _, hr, _, _, hsp⟩
    · exact ho0 hsp
    · exact horf r hr hsp.symm
  have hnrop : ¬(o.pid = 0 ∨ ∃ u m, ReachAt records 0 u m ∧ u.pid = o.pid) := by
    rintro (hp | ⟨u, m, hu, hupid⟩)
    · exact h0 o ho hp
    · exact hnro ⟨m, (pid_inj hN (reach_mem hu) ho hupid) ▸ hu⟩
  have hcnt0 : (recordsOf t).count o = 0 := by
    refine (populate_count hN h0 (records.length + 1) rootRecord 0 t ht
      (Or.inl ⟨rfl, rfl⟩) o).2 ?_
    rintro (ho' | ⟨k, hk⟩)
    · exact h0 o ho (by rw [ho']; rfl)
    · exact hnro ⟨k, hk⟩
  refine ⟨t, ht, hcnt0, ?_, ?_⟩
  · intro x hx hxo
    have hmem : o ∈ recordsOf t := by
      rw [← preorder_snd t 0]
      exact hxo ▸ List.mem_map.mpr ⟨x, hx, rfl⟩
    rw [List.count_eq_zero] at hcnt0
    exact hcnt0 hmem
  · intro s k hk0 hks
    refine (populate_count hN h0 (records.length + 1) rootRecord 0 t ht
      (Or.inl ⟨rfl, rfl⟩) s).2 ?_
    rintro (hs' | ⟨m, hm⟩)
    · exact h0 s (reach_mem hks) (by rw [hs']; rfl)
    · exact not_reach_of_unreachable_pid hN h0 k hnrop hks ⟨m, hm⟩

/-- Counterexample to C5 as stated: the record (b, 5, 99) has a ppid, 99,
matching no harvested pid and different from 0; yet because another record
shares its pid and chains to the root, the pid index resolves the shared pid
to the orphan, which therefore appears in the built tree. -/
theorem claim_C5_counterexample :
    ({ name := "b", pid := 5, ppid := 99 } : ProcessRecord) ∈
      [({ name := "a", pid := 5, ppid := 0 } : ProcessRecord),
        { name := "b", pid := 5, ppid := 99 }] ∧
    (∀ r ∈ [({ name := "a", pid := 5, ppid := 0 } : ProcessRecord),
        { name := "b", pid := 5, ppid := 99 }], r.pid ≠ 99) ∧
    (99 : Int) ≠ 0 ∧
    build_process_tree 3
        [({ name := "a", pid := 5, ppid := 0 } : ProcessRecord),
          { name := "b", pid := 5, ppid := 99 }] =
      .ok (.mk rootRecord [.mk { name := "b", pid := 5, ppid := 99 } []]) ∧
    ¬(recordsOf (.mk rootRecord
        [.mk { name := "b", pid := 5, ppid := 99 } []])).count
      { name := "b", pid := 5, ppid := 99 } = 0 := by
  refine ⟨by decide, by decide, by decide, rfl, ?_⟩
  have h1 : (recordsOf (.mk rootRecord
      [.mk { name := "b", pid := 5, ppid := 99 } []])).count
      ({ name := "b", pid := 5, ppid := 99 } : ProcessRecord) = 1 := by
    simp only [recordsOf_mk, preorderList, preorder, List.map_append]
    simp [List.count_cons, List.count_append]
    decide
  rw [h1]
  decide

/-- Witness for C5 (amended): a one-real-child snapshot plus an orphan whose
parent 12345 was never harvested. -/
theorem claim_C5_witness :
    (([({ name := "init", pid := 1, ppid := 0 } : ProcessRecord),
        { name := "orphan", pid := 99, ppid := 12345 }].map
          (fun r => r.pid)).Nodup ∧
      (∀ r ∈ [({ name := "init", pid := 1, ppid := 0 } : ProcessRecord),
          { name := "orphan", pid := 99, ppid := 12345 }], r.pid ≠ 0) ∧
      ({ name := "orphan", pid := 99, ppid := 12345 } : ProcessRecord) ∈
        [({ name := "init", pid := 1, ppid := 0 } : ProcessRecord),
          { name := "orphan", pid := 99, ppid := 12345 }] ∧
      (∀ r ∈ [({ name := "init", pid := 1, ppid := 0 } : ProcessRecord),
          { name := "orphan", pid := 99, ppid := 12345 }],
        r.pid ≠ (12345 : Int)) ∧
      (12345 : Int) ≠ 0) ∧
    ∃ t, build_process_tree
        ([({ name := "init", pid := 1, ppid := 0 } : ProcessRecord),
          { name := "orphan", pid := 99, ppid := 12345 }].length + 1)
        [({ name := "init", pid := 1, ppid := 0 } : ProcessRecord),
          { name := "orphan", pid := 99, ppid := 12345 }] = .ok t ∧
      (recordsOf t).count { name := "orphan", pid := 99, ppid := 12345 } = 0 ∧
      (∀ x ∈ preorder t 0,
        x.2 ≠ { name := "orphan", pid := 99, ppid := 12345 }) ∧
      ∀ (s : ProcessRecord) (k : Nat), 0 < k →
        ReachAt [({ name := "init", pid := 1, ppid := 0 } : ProcessRecord),
          { name := "orphan", pid := 99, ppid := 12345 }]
          ({ name := "orphan", pid := 99, ppid := 12345 } :
            ProcessRecord).pid s k →
        (recordsOf t).count s = 0 :=
  ⟨⟨by decide, by decide, by decide, by decide, by decide⟩,
    claim_C5 _ _ (by decide) (by decide) (by decide) (by decide) (by decide)⟩

/-- C9: when the ppid edges reachable from pid 0 are acyclic (no nontrivial
pid path from a 0-reachable pid back to itself), the recursive population
terminates: fuel `records.length + 1` suffices, bounding the recursion
depth, and every node depth in the produced tree is at most the record
count. -/
theorem claim_C9 (records : List ProcessRecord)
    (hacyc : ∀ (p : Int) (n k : Nat), PidPath records 0 p n → 0 < k →
      ¬PidPath records p p k) :
    ∃ t, build_process_tree (records.length + 1) records = .ok t ∧
      ∀ x ∈ preorder t 0, x.1 ≤ records.length := by
  obtain ⟨t, ht⟩ := populate_ok_of_bounded
    (fun p n h => pidpath_len_le_of_acyclic hacyc h) (records.length + 1)
    (.mk rootRecord []) 0 (PidPath.refl 0) (by omega)
  refine ⟨t, ht, fun x hx => ?_⟩
  have := populate_depth_lt (records.length + 1) (.mk rootRecord []) t ht
    rfl x hx
  omega

/-- Witness for C9: the empty snapshot is acyclic; building terminates with
fuel 1 on the bare synthetic root. -/
theorem claim_C9_witness :
    (∀ (p : Int) (n k : Nat), PidPath [] 0 p n → 0 < k →
      ¬PidPath ([] : List ProcessRecord) p p k) ∧
    ∃ t, build_process_tree (([] : List ProcessRecord).length + 1) [] =
        .ok t ∧
      ∀ x ∈ preorder t 0, x.1 ≤ ([] : List ProcessRecord).length := by
  have hacyc : ∀ (p : Int) (n k : Nat), PidPath [] 0 p n → 0 < k →
      ¬PidPath ([] : List ProcessRecord) p p k := by
    intro p n k _ hk hc
    cases hc with
    | refl => omega
    | step hr _ _ => exact absurd hr (List.not_mem_nil _)
  exact ⟨hacyc, claim_C9 [] hacyc⟩
